import Mathlib

/-!
Verification of `mcp_daemon/convert_to_json.py`: the Markdown heading-tree
builder (`parse_markdown`) and the two section extractors
(`collect_sections_top_level`, `collect_sections_flatten`).

Python strings are modelled as lists of characters (`Str`); the in-place
mutation of stack entries in `parse_markdown` becomes functional rebuilding of
explicit `Frame`s, where a frame is closed into an immutable `Node` exactly
when the Python code would stop mutating it (a pop, or end of input).
-/

namespace MdToKv

/-- Python strings, modelled as lists of characters. -/
abbrev Str := List Char

/-- Characters matched by the regex class `\s` on the ASCII range (space, tab,
newline, carriage return, vertical tab, form feed), which is also the set
`str.strip()` removes on ASCII text. -/
def wsChar (c : Char) : Bool :=
  c = ' ' || c = '\t' || c = '\n' || c = '\r' || c = '\x0b' || c = '\x0c'

/-- Python `str.strip()`: remove leading and trailing whitespace. -/
def pyStrip (s : Str) : Str :=
  ((s.dropWhile wsChar).reverse.dropWhile wsChar).reverse

/-- Model of `HEADING_RE = re.compile(r"^(#{1,6})\s+(.*)\s*$")` applied to one
line (faithful for lines as produced by `splitlines`, which contain no line
separator).  The maximal run of leading `#` must have length 1..6 and be
followed by at least one whitespace character; the match yields the marker
count (group 1's length) and the remainder after the maximal whitespace run
(group 2: `\s+` is greedy and `(.*)` then takes the rest of the line, the
trailing `\s*` matching the empty string). -/
def headingMatch (line : Str) : Option (Nat × Str) :=
  let hashes := line.takeWhile fun c => c = '#'
  let rest := line.dropWhile fun c => c = '#'
  if 1 ≤ hashes.length ∧ hashes.length ≤ 6 ∧ rest.head?.any wsChar then
    some (hashes.length, rest.dropWhile wsChar)
  else none

/-- One heading, or the virtual document root (`class Node` of the source:
`level`, `title`, `content_lines`, `children`). -/
inductive Node where
  | mk (level : Nat) (title : Str) (content_lines : List Str) (children : List Node)

def Node.level : Node → Nat
  | .mk l _ _ _ => l

def Node.title : Node → Str
  | .mk _ t _ _ => t

def Node.content_lines : Node → List Str
  | .mk _ _ cl _ => cl

def Node.children : Node → List Node
  | .mk _ _ _ ch => ch

/-- Drop trailing blank lines, as the loop
`while lines and not lines[-1].strip(): lines.pop()` in `Node.content`. -/
def dropTrailingBlanks (lines : List Str) : List Str :=
  (lines.reverse.dropWhile fun l => pyStrip l == []).reverse

/-- Method `Node.content`: the content lines with trailing blank lines
removed, joined by newlines. -/
def Node.content (n : Node) : Str :=
  List.intercalate ['\n'] (dropTrailingBlanks n.content_lines)

/-- One still-open stack entry of `parse_markdown`: the fields of the Node it
will become, as accumulated so far. -/
structure Frame where
  level : Nat
  title : Str
  content_lines : List Str
  children : List Node

/-- Close a finished frame into an immutable Node. -/
def closeFrame (f : Frame) : Node :=
  .mk f.level f.title f.content_lines f.children

/-- Append a completed child Node (as `stack[-1].children.append(node)` would
have recorded it at creation time). -/
def pushChild (g : Frame) (c : Node) : Frame :=
  { g with children := g.children ++ [c] }

/-- The pop loop `while stack and stack[-1].level >= level: stack.pop()`,
with explicit fuel so that the definition is structurally recursive (one unit
of fuel per iteration; `popFrames` below supplies enough).  The head of the
list is the top of the stack; a popped frame is closed and becomes the last
child of the frame below it.  The `[] => []` branches are unreachable from
`parse_markdown`, where the bottom frame has level 0 and every heading has
level at least 1 (the Python code would raise on them). -/
def popFramesFuel (level : Nat) : Nat → List Frame → List Frame
  | _, [] => []
  | 0, s => s
  | fuel + 1, f :: rest =>
    if level ≤ f.level then
      match rest with
      | [] => []
      | g :: gs => popFramesFuel level fuel (pushChild g (closeFrame f) :: gs)
    else f :: rest

def popFrames (level : Nat) (s : List Frame) : List Frame :=
  popFramesFuel level s.length s

/-- The body of the for-loop of `parse_markdown`, for one raw line. -/
def mdStep (stack : List Frame) (raw_line : Str) : List Frame :=
  match headingMatch raw_line with
  | some (level, title) =>
    ⟨level, pyStrip title, [], []⟩ :: popFrames level stack
  | none =>
    match stack with
    | [] => []
    | f :: rest => { f with content_lines := f.content_lines ++ [raw_line] } :: rest

/-- Close every remaining open frame into its parent (with fuel for
structural recursion, as for the pop loop): the returned root is the object
the Python code has been mutating in place all along.  The `[]` and zero-fuel
branches are unreachable from `parse_markdown`. -/
def collapseFuel : Nat → List Frame → Node
  | _, [] => .mk 0 "ROOT".data [] []
  | _, [f] => closeFrame f
  | 0, f :: _ :: _ => closeFrame f
  | fuel + 1, f :: g :: rest => collapseFuel fuel (pushChild g (closeFrame f) :: rest)

def collapse (s : List Frame) : Node :=
  collapseFuel s.length s

/-- The initial stack entry `root = Node(0, "ROOT")`. -/
def rootFrame : Frame := ⟨0, "ROOT".data, [], []⟩

/-- Function `parse_markdown` after `md_text.splitlines()`: fold the per-line
step over the lines, starting from `[root]`. -/
def parseLines (lines : List Str) : Node :=
  collapse (lines.foldl mdStep [rootFrame])

/-- Split at newline characters, keeping empty pieces. -/
def splitNl (s : Str) : List Str :=
  match s with
  | [] => [[]]
  | c :: cs =>
    if c = '\n' then [] :: splitNl cs
    else
      match splitNl cs with
      | l :: ls => (c :: l) :: ls
      | [] => [[c]]

/-- Python `str.splitlines()`, modelled for text whose line separators are
newline characters: split at newlines, with no empty final piece for text
ending in a newline, and no piece at all for empty text. -/
def pySplitlines (text : Str) : List Str :=
  let parts := splitNl text
  if parts.getLast? = some [] then parts.dropLast else parts

/-- Function `parse_markdown` of the source. -/
def parse_markdown (md_text : Str) : Node :=
  parseLines (pySplitlines md_text)

mutual

/-- Function `_section_content_with_children` of the source: the node's own
stripped content when nonempty, then one block per child; blocks are joined
with a blank line, empty parts omitted by the final filter. -/
def _section_content_with_children (node : Node) : Str :=
  match node with
  | .mk level title content_lines children =>
    let own := pyStrip (Node.content (.mk level title content_lines children))
    let parts := (if own = [] then [] else [own]) ++ childBlocks children
    List.intercalate ('\n' :: '\n' :: []) (parts.filter fun p => p != [])

/-- The for-loop over `node.children`: a reconstructed heading line
(`"#" * child.level + " " + child.title`), then the child's recursive content
when nonempty, joined by a newline and stripped. -/
def childBlocks (cs : List Node) : List Str :=
  match cs with
  | [] => []
  | c :: rest =>
    let heading := List.replicate c.level '#' ++ ' ' :: c.title
    let content := _section_content_with_children c
    let block := if content = [] then [heading] else [heading, content]
    pyStrip (List.intercalate ['\n'] block) :: childBlocks rest

end

mutual

/-- The inner `walk` of `collect_sections_top_level`: for each child in
order, emit a record when its level equals `top_level`, then keep walking
into the child regardless. -/
def walkTop (top_level : Int) (node : Node) : List (List Str × Str) :=
  match node with
  | .mk _ _ _ children => walkTopChildren top_level children

def walkTopChildren (top_level : Int) (cs : List Node) : List (List Str × Str) :=
  match cs with
  | [] => []
  | child :: rest =>
    (if (child.level : Int) = top_level
     then [([child.title], _section_content_with_children child)]
     else [])
    ++ walkTop top_level child ++ walkTopChildren top_level rest

end

/-- Function `collect_sections_top_level` of the source. -/
def collect_sections_top_level (root : Node) (top_level : Int) : List (List Str × Str) :=
  walkTop top_level root

/-- Assignment `title_path[k] = v` on Python's insertion-ordered dict,
modelled as an association list. -/
def dictSet (k : Nat) (v : Str) : List (Nat × Str) → List (Nat × Str)
  | [] => [(k, v)]
  | (k', v') :: rest => if k' = k then (k, v) :: rest else (k', v') :: dictSet k v rest

/-- Removal `title_path.pop(k, None)` (a no-op when the key is absent, which
also covers the guarding `if node.level in title_path`). -/
def dictErase (k : Nat) (d : List (Nat × Str)) : List (Nat × Str) :=
  d.filter fun e => e.1 != k

/-- Lookup `title_path[k]` (total model; in the source the key is always
present when looked up, since the levels come from the dict's own keys). -/
def dictGet (d : List (Nat × Str)) (k : Nat) : Str :=
  match d.find? (fun e => e.1 == k) with
  | some e => e.2
  | none => []

def insertAsc (x : Nat) : List Nat → List Nat
  | [] => [x]
  | y :: ys => if x ≤ y then x :: y :: ys else y :: insertAsc x ys

/-- Python `sorted(...)` on the (distinct) filtered keys. -/
def sortAsc (l : List Nat) : List Nat := l.foldr insertAsc []

mutual

/-- One call of the inner `walk` of `collect_sections_flatten`: returns the
records this call appends (its own, then its children's, in order) and the
dict state after its cleanup-on-unwind. -/
def flattenWalk (start_level : Int) (tp : List (Nat × Str)) (node : Node) :
    List (List Str × Str) × List (Nat × Str) :=
  match node with
  | .mk level title content_lines children =>
    if (level : Int) ≥ start_level then
      let tp' := dictSet level title tp
      let levels := sortAsc ((tp'.map Prod.fst).filter fun l => (l : Int) ≥ start_level)
      let q := flattenWalkChildren start_level tp' children
      ((levels.map (dictGet tp'),
        pyStrip (Node.content (.mk level title content_lines children))) :: q.1,
       dictErase level q.2)
    else
      let q := flattenWalkChildren start_level tp children
      (q.1, dictErase level q.2)

def flattenWalkChildren (start_level : Int) (tp : List (Nat × Str)) (cs : List Node) :
    List (List Str × Str) × List (Nat × Str) :=
  match cs with
  | [] => ([], tp)
  | c :: rest =>
    let r1 := flattenWalk start_level tp c
    let r2 := flattenWalkChildren start_level r1.2 rest
    (r1.1 ++ r2.1, r2.2)

end

/-- Function `collect_sections_flatten` of the source (`title_path` starts
empty). -/
def collect_sections_flatten (root : Node) (start_level : Int) : List (List Str × Str) :=
  (flattenWalk start_level [] root).1

mutual

/-- Depth-first pre-order listing of a tree's nodes (mutual version below for
forests). -/
def preorderNode (n : Node) : List Node :=
  match n with
  | .mk l t cl children => .mk l t cl children :: preorderChildren children

def preorderChildren (cs : List Node) : List Node :=
  match cs with
  | [] => []
  | c :: rest => preorderNode c ++ preorderChildren rest

end

mutual

/-- Hereditary well-formedness of a forest under a parent of level `p`, as
`parse_markdown` guarantees it: each node's level is strictly greater than its
parent's and at most 6, each title is a stripped string, sibling levels are
non-increasing left to right, and the same holds recursively below. -/
def forestOk (p : Nat) (cs : List Node) : Bool :=
  match cs with
  | [] => true
  | c :: rest =>
    decide (p < c.level) && decide (c.level ≤ 6) && (pyStrip c.title == c.title) &&
      (match rest with
       | [] => true
       | d :: _ => decide (d.level ≤ c.level)) &&
      nodeOk c && forestOk p rest

def nodeOk (c : Node) : Bool :=
  match c with
  | .mk l _ _ ch => forestOk l ch

end

mutual

/-- The invariant exactly as claimed for the data model: every child's level
is strictly greater than its parent's, hereditarily. -/
def childrenLevelsGt (n : Node) : Bool :=
  match n with
  | .mk l _ _ ch => forestLevelsGt l ch

def forestLevelsGt (p : Nat) (cs : List Node) : Bool :=
  match cs with
  | [] => true
  | c :: rest => decide (p < c.level) && childrenLevelsGt c && forestLevelsGt p rest

end

/-- The per-frame part of the parse-stack invariant. -/
def frameOk (f : Frame) : Prop :=
  forestOk f.level f.children = true ∧ pyStrip f.title = f.title ∧ f.level ≤ 6

/-- Relation between a frame and the frame directly below it on the stack:
levels strictly decrease downward, and every already-closed child of the
lower frame has level at least the upper frame's (so closing the upper frame
appends a child that keeps sibling levels non-increasing). -/
def stackPair (f g : Frame) : Prop :=
  g.level < f.level ∧ ∀ c ∈ g.children, f.level ≤ c.level

/-- The parse-stack invariant (minus the top-frame condition): nonempty, a
level-0 frame at the bottom, adjacent frames related by `stackPair`, every
frame well-formed. -/
def StackOk (s : List Frame) : Prop :=
  s ≠ [] ∧ (∀ b ∈ s.getLast?, b.level = 0) ∧ List.Chain' stackPair s ∧ ∀ f ∈ s, frameOk f

/-- The full invariant: additionally, the top frame never has children yet
(a frame only gains children while buried under the frame that pops into
it). -/
def StackInv (s : List Frame) : Prop :=
  StackOk s ∧ ∀ h ∈ s.head?, h.children = []

/-- The joining-with-trailing-blank-trim that `Node.content` performs, as a
function of the raw line list. -/
def contentOf (cl : List Str) : Str :=
  List.intercalate ['\n'] (dropTrailingBlanks cl)

mutual

/-- Mirror relation between an original node and its reparsed counterpart:
same level and title, the reparsed content equal to the stripped original
content (both read through `contentOf`, which removes trailing blank lines),
and mirrored children pointwise. -/
def mirN (c r : Node) : Bool :=
  match c, r with
  | .mk l t cl ch, .mk l' t' cl' ch' =>
    (l == l') && (t == t') && (contentOf cl' == pyStrip (contentOf cl)) && mirF ch ch'

def mirF (cs rs : List Node) : Bool :=
  match cs, rs with
  | [], [] => true
  | c :: cs2, r :: rs2 => mirN c r && mirF cs2 rs2
  | _, _ => false

end

/-- Membership of a node in a tree (reflexive-transitive closure of the
child relation). -/
inductive Subtree : Node → Node → Prop where
  | refl (n : Node) : Subtree n n
  | step (m c : Node) (l : Nat) (t : Str) (cl : List Str) (ch : List Node) :
      c ∈ ch → Subtree m c → Subtree m (Node.mk l t cl ch)

/-- Extension order on trees, describing how the tree under construction can
still grow while parsing continues: a node with no children yet may gain
content lines (its recorded lines stay a prefix) and arbitrary new children;
a node that already has children keeps its content and all children except
the last fixed, the last child may itself grow, and new later siblings may
appear after it.  Only the rightmost spine of the tree is still open, which
is exactly what the parse stack holds. -/
inductive Ext : Node → Node → Prop where
  | leaf (l : Nat) (t : Str) (cl cl' : List Str) (kids' : List Node) :
      cl <+: cl' → Ext (Node.mk l t cl []) (Node.mk l t cl' kids')
  | cons (l : Nat) (t : Str) (cl : List Str) (kids : List Node) (c c' : Node)
      (suf : List Node) : Ext c c' →
      Ext (Node.mk l t cl (kids ++ [c])) (Node.mk l t cl (kids ++ c' :: suf))

mutual

/-- Specification-side description of the flatten extractor: one record per
node with level ≥ `s`, whose path is the chain of ancestor titles (ancestors
with level ≥ `s`, root-to-leaf) ending in the node's own title, and whose
content is the node's own stripped content.  The walk of the source is proved
equal to this on well-formed trees. -/
def flattenRecs (s : Int) (anc : List Str) (n : Node) : List (List Str × Str) :=
  match n with
  | .mk level title content_lines children =>
    if (level : Int) ≥ s then
      (anc ++ [title], pyStrip (Node.content (.mk level title content_lines children))) ::
        flattenRecsChildren s (anc ++ [title]) children
    else flattenRecsChildren s anc children

def flattenRecsChildren (s : Int) (anc : List Str) (cs : List Node) :
    List (List Str × Str) :=
  match cs with
  | [] => []
  | c :: rest => flattenRecs s anc c ++ flattenRecsChildren s anc rest

end

mutual

/-- The hypotheses of the round-trip theorem that the parser cannot
guarantee by itself: every line of a node's stripped content re-parses as a
content line (not as a heading — stripping can otherwise uncover an indented
heading-looking line), and every title below is nonempty (an empty title
serializes as markers plus a space, whose strip no longer matches the
heading pattern) and free of newline characters. -/
def userOK (n : Node) : Bool :=
  match n with
  | .mk _ _ cl ch =>
    ((splitNl (pyStrip (contentOf cl))).all fun line => (headingMatch line).isNone) &&
      userForest ch

def userForest (cs : List Node) : Bool :=
  match cs with
  | [] => true
  | c :: rest =>
    (c.title != []) && (!(c.title.contains '\n')) && userOK c && userForest rest

end

/-- The lines a child's serialized block contributes: the reconstructed
heading line, then the lines of the child's own serialization. -/
def blockLines (c : Node) : List Str :=
  (List.replicate c.level '#' ++ ' ' :: c.title) ::
    (if _section_content_with_children c = [] then []
     else splitNl (_section_content_with_children c))

/-- The stack of still-open frames the reparse holds after reading a node's
serialized block: the rightmost spine of the node, deepest frame first; each
frame carries the level and title of its node, content lines whose
`contentOf` is the node's stripped content (trailing separator blanks are
absorbed by the trim), and the already-closed mirrors of all children before
the last.  Child levels are strictly greater than their parent's. -/
inductive OpenS : Node → List Frame → Prop where
  | leaf (l : Nat) (t : Str) (cl cl' : List Str) :
      contentOf cl' = pyStrip (contentOf cl) →
      OpenS (Node.mk l t cl []) [⟨l, t, cl', []⟩]
  | node (l : Nat) (t : Str) (cl cl' : List Str) (ks : List Node) (k : Node)
      (rs : List Node) (os : List Frame) :
      contentOf cl' = pyStrip (contentOf cl) →
      mirF ks rs = true →
      l < k.level →
      OpenS k os →
      OpenS (Node.mk l t cl (ks ++ [k])) (os ++ [⟨l, t, cl', rs⟩])

/-- Append one raw line to the content of the frame on top of the stack (what
`stack[-1].add_content(line)` does when the top frame is the head). -/
def padTop (s : List Frame) (line : Str) : List Frame :=
  match s with
  | [] => []
  | f :: r => { f with content_lines := f.content_lines ++ [line] } :: r

/-- Statement of the serialization-reparse simulation for one node: starting
from a fresh frame carrying the node's level and title, reading the lines of
its serialized content leaves an open spine mirroring the node on the
stack. -/
def SerialSim (c : Node) : Prop :=
  nodeOk c = true → userOK c = true → _section_content_with_children c ≠ [] →
  ∀ below : List Frame,
  ∃ os, OpenS c os ∧
    List.foldl mdStep ((⟨c.level, c.title, [], []⟩ : Frame) :: below)
      (splitNl (_section_content_with_children c)) = os ++ below

/-- Statement of the simulation for one child block: its heading line pops
the stack as `popFrames` describes and pushes a fresh frame, and the rest of
the block builds the open spine of the child. -/
def BlockSim (c : Node) : Prop :=
  nodeOk c = true → userOK c = true → 1 ≤ c.level → c.level ≤ 6 → c.title ≠ [] →
  pyStrip c.title = c.title → ¬ '\n' ∈ c.title →
  ∀ s s' : List Frame, popFrames c.level s = s' →
  ∃ os, OpenS c os ∧ List.foldl mdStep s (blockLines c) = os ++ s'

/-- Statement of the simulation for a list of later sibling blocks, starting
with the open spine of the previous sibling on top of the parent frame: all
but the last sibling close into mirrors recorded in the parent frame, and the
last sibling's spine stays open. -/
def ChildrenSim (cs : List Node) : Prop :=
  ∀ l : Nat, ∀ t : Str, forestOk l cs = true → userForest cs = true →
  ∀ prev : Node, (∀ d ∈ cs.head?, d.level ≤ prev.level) → l < prev.level →
  ∀ os_p : List Frame, OpenS prev os_p → ∀ cl' : List Str, ∀ rs : List Node,
  ∀ below : List Frame,
  ∃ front q os_q rs_new,
    prev :: cs = front ++ [q] ∧ l < q.level ∧ OpenS q os_q ∧
    mirF front rs_new = true ∧
    List.foldl mdStep (os_p ++ (⟨l, t, cl', rs⟩ : Frame) :: below)
      (cs.flatMap fun d => [] :: blockLines d)
      = os_q ++ (⟨l, t, cl', rs ++ rs_new⟩ : Frame) :: below

/-! ## Lemmas about stripping and joining character lists -/

theorem head_not_ws_of_dropWhile {l : Str} {a : Char} {t : Str}
    (h : l.dropWhile wsChar = a :: t) : wsChar a = false := by
  have hh := List.head?_dropWhile_not wsChar l
  rw [h] at hh
  simpa using hh

theorem dropWhile_eq_self_of_head {α : Type} {p : α → Bool} {l : List α}
    (h : ∀ a ∈ l.head?, p a = false) : l.dropWhile p = l := by
  cases l with
  | nil => rfl
  | cons a t =>
    have : p a = false := h a (by simp)
    simp [List.dropWhile_cons, this]

theorem head_of_dropWhile_eq_self {α : Type} {p : α → Bool} {l : List α}
    (h : l.dropWhile p = l) : ∀ a ∈ l.head?, p a = false := by
  intro a ha
  have hh := List.head?_dropWhile_not p l
  rw [h] at hh
  cases l with
  | nil => simp at ha
  | cons b t =>
    simp at ha
    subst ha
    simpa using hh

/-- Left strip as a standalone function: pyStrip factors through it. -/
theorem pyStrip_eq (s : Str) :
    pyStrip s = ((s.dropWhile wsChar).reverse.dropWhile wsChar).reverse := rfl

theorem head?_dropWhile_ws {l : Str} : ∀ a ∈ (l.dropWhile wsChar).head?, wsChar a = false := by
  intro a ha
  have hh := List.head?_dropWhile_not wsChar l
  cases hd : (l.dropWhile wsChar).head? with
  | none => rw [hd] at ha; simp at ha
  | some b =>
    rw [hd] at ha hh
    simp at ha
    subst ha
    simpa using hh

theorem pyStrip_getLast? (s : Str) : ∀ a ∈ (pyStrip s).getLast?, wsChar a = false := by
  intro a ha
  rw [pyStrip_eq, List.getLast?_reverse] at ha
  exact head?_dropWhile_ws a ha

theorem pyStrip_head? (s : Str) : ∀ a ∈ (pyStrip s).head?, wsChar a = false := by
  intro a ha
  rw [pyStrip_eq, List.head?_reverse] at ha
  obtain ⟨pre, hpre⟩ := List.dropWhile_suffix (l := (s.dropWhile wsChar).reverse) wsChar
  cases hd : (s.dropWhile wsChar).reverse.dropWhile wsChar with
  | nil => rw [hd] at ha; simp at ha
  | cons b t =>
    rw [hd] at ha hpre
    have h2 : (pre ++ b :: t).getLast? = (b :: t).getLast? :=
      List.getLast?_append_of_ne_nil pre (by simp)
    rw [hpre, List.getLast?_reverse] at h2
    rw [← h2] at ha
    exact head?_dropWhile_ws a ha

/-- Characterization of fixed points of pyStrip: first and last characters
(when present) are not whitespace. -/
theorem pyStrip_eq_self {s : Str} (h1 : ∀ a ∈ s.head?, wsChar a = false)
    (h2 : ∀ a ∈ s.getLast?, wsChar a = false) : pyStrip s = s := by
  rw [pyStrip_eq]
  rw [dropWhile_eq_self_of_head h1]
  rw [dropWhile_eq_self_of_head (by simpa using h2)]
  simp

theorem pyStrip_idem (s : Str) : pyStrip (pyStrip s) = pyStrip s :=
  pyStrip_eq_self (pyStrip_head? s) (pyStrip_getLast? s)

theorem head?_of_stripped {s : Str} (h : pyStrip s = s) :
    ∀ a ∈ s.head?, wsChar a = false := by
  rw [← h]; exact pyStrip_head? s

theorem getLast?_of_stripped {s : Str} (h : pyStrip s = s) :
    ∀ a ∈ s.getLast?, wsChar a = false := by
  rw [← h]; exact pyStrip_getLast? s

theorem intercalate_nil (sep : Str) : List.intercalate sep ([] : List Str) = [] := rfl

theorem intercalate_single (sep a : Str) : List.intercalate sep [a] = a := by
  simp [List.intercalate]

theorem intercalate_cons₂ (sep a b : Str) (t : List Str) :
    List.intercalate sep (a :: b :: t) = a ++ sep ++ List.intercalate sep (b :: t) := by
  simp [List.intercalate, List.append_assoc]

theorem intercalate_ne_nil_of_head {sep a : Str} {t : List Str} (ha : a ≠ []) :
    List.intercalate sep (a :: t) ≠ [] := by
  cases t with
  | nil => rw [intercalate_single]; exact ha
  | cons b t2 =>
    rw [intercalate_cons₂]
    simp [ha]

theorem head?_intercalate_of_ne_nil {sep a : Str} {t : List Str} (ha : a ≠ []) :
    (List.intercalate sep (a :: t)).head? = a.head? := by
  cases t with
  | nil => rw [intercalate_single]
  | cons b t2 =>
    rw [intercalate_cons₂, List.append_assoc, List.head?_append]
    cases hh : a.head? with
    | none => simp at hh; exact absurd hh ha
    | some x => simp [Option.or]

theorem getLast?_intercalate_of_ne_nil {sep a : Str} {t : List Str}
    (hne : List.intercalate sep t ≠ [] ∨ t = []) (hlast : t = [] → a ≠ []) :
    (List.intercalate sep (a :: t)).getLast? =
      (if t = [] then a else List.intercalate sep t).getLast? := by
  cases t with
  | nil => rw [intercalate_single]; simp
  | cons b t2 =>
    rw [intercalate_cons₂]
    rcases hne with hne | hne
    · rw [List.getLast?_append]
      cases hg : (List.intercalate sep (b :: t2)).getLast? with
      | none =>
        rw [List.getLast?_eq_none_iff] at hg
        exact absurd hg hne
      | some x => simp only [Option.or]; exact hg.symm
    · simp at hne

/-- Joining stripped, nonempty pieces with any separator yields a stripped
string: its first and last characters come from the first and last pieces. -/
theorem intercalate_stripped (sep : Str) (parts : List Str)
    (h : ∀ p ∈ parts, pyStrip p = p ∧ p ≠ []) :
    pyStrip (List.intercalate sep parts) = List.intercalate sep parts := by
  induction parts with
  | nil => rfl
  | cons a t ih =>
    have ha := h a (by simp)
    apply pyStrip_eq_self
    · rw [head?_intercalate_of_ne_nil ha.2]
      exact head?_of_stripped ha.1
    · cases t with
      | nil =>
        rw [intercalate_single]
        exact getLast?_of_stripped ha.1
      | cons b t2 =>
        have hb := h b (by simp)
        have hne : List.intercalate sep (b :: t2) ≠ [] := intercalate_ne_nil_of_head hb.2
        rw [getLast?_intercalate_of_ne_nil (Or.inl hne) (fun hc => ha.2)]
        simp only [if_neg (by simp : ¬ (b :: t2 = []))]
        have := ih (fun p hp => h p (by simp [hp]))
        exact getLast?_of_stripped this

/-- Every block the child loop of the serializer builds is a stripped string
(it is a pyStrip image). -/
theorem mem_childBlocks_stripped {cs : List Node} {b : Str} (hb : b ∈ childBlocks cs) :
    pyStrip b = b := by
  induction cs with
  | nil => simp [childBlocks] at hb
  | cons c rest ih =>
    rw [childBlocks] at hb
    simp only [List.mem_cons] at hb
    rcases hb with hb | hb
    · subst hb; exact pyStrip_idem _
    · exact ih hb

/-- The serialized section text is always a stripped string. -/
theorem section_content_stripped (n : Node) :
    pyStrip (_section_content_with_children n) = _section_content_with_children n := by
  cases n with
  | mk l t cl ch =>
    rw [_section_content_with_children]
    apply intercalate_stripped
    intro p hp
    rw [List.mem_filter] at hp
    refine ⟨?_, by simpa using hp.2⟩
    rcases List.mem_append.1 hp.1 with hp1 | hp1
    · split at hp1
      · simp at hp1
      · simp at hp1
        subst hp1
        exact pyStrip_idem _
    · exact mem_childBlocks_stripped hp1

/-! ## Shape of the records the extractors emit -/

mutual

theorem mem_walkTop_shape (tl : Int) (n : Node) (r : List Str × Str)
    (hr : r ∈ walkTop tl n) :
    ∃ m : Node, (m.level : Int) = tl ∧ r = ([m.title], _section_content_with_children m) := by
  cases n with
  | mk l t cl ch =>
    rw [walkTop] at hr
    exact mem_walkTopChildren_shape tl ch r hr

theorem mem_walkTopChildren_shape (tl : Int) (cs : List Node) (r : List Str × Str)
    (hr : r ∈ walkTopChildren tl cs) :
    ∃ m : Node, (m.level : Int) = tl ∧ r = ([m.title], _section_content_with_children m) := by
  cases cs with
  | nil => rw [walkTopChildren] at hr; simp at hr
  | cons child rest =>
    rw [walkTopChildren] at hr
    rcases List.mem_append.1 hr with h1 | h1
    · rcases List.mem_append.1 h1 with h2 | h2
      · by_cases hl : (child.level : Int) = tl
        · rw [if_pos hl] at h2
          simp at h2
          exact ⟨child, hl, h2⟩
        · rw [if_neg hl] at h2
          simp at h2
      · exact mem_walkTop_shape tl child r h2
    · exact mem_walkTopChildren_shape tl rest r h1

end

mutual

theorem flattenWalk_content_stripped (s : Int) (tp : List (Nat × Str)) (n : Node)
    (r : List Str × Str) (hr : r ∈ (flattenWalk s tp n).1) : pyStrip r.2 = r.2 := by
  cases n with
  | mk l t cl ch =>
    rw [flattenWalk] at hr
    by_cases hl : (l : Int) ≥ s
    · rw [if_pos hl] at hr
      simp only [List.mem_cons] at hr
      rcases hr with hr | hr
      · subst hr; exact pyStrip_idem _
      · exact flattenWalkChildren_content_stripped s _ ch r hr
    · rw [if_neg hl] at hr
      exact flattenWalkChildren_content_stripped s tp ch r hr

theorem flattenWalkChildren_content_stripped (s : Int) (tp : List (Nat × Str))
    (cs : List Node) (r : List Str × Str)
    (hr : r ∈ (flattenWalkChildren s tp cs).1) : pyStrip r.2 = r.2 := by
  cases cs with
  | nil => rw [flattenWalkChildren] at hr; simp at hr
  | cons c rest =>
    rw [flattenWalkChildren] at hr
    simp only [List.mem_append] at hr
    rcases hr with h1 | h1
    · exact flattenWalk_content_stripped s tp c r h1
    · exact flattenWalkChildren_content_stripped s _ rest r h1

end

/-! ## Preservation of the parse-stack invariant -/

theorem getLast?_cons_ne {α : Type} (a : α) {l : List α} (h : l ≠ []) :
    (a :: l).getLast? = l.getLast? := by
  cases l with
  | nil => exact absurd rfl h
  | cons b t => exact List.getLast?_cons_cons

theorem forestOk_cons {p : Nat} {c : Node} {rest : List Node} :
    forestOk p (c :: rest) = true ↔
      p < c.level ∧ c.level ≤ 6 ∧ pyStrip c.title = c.title ∧
      (∀ d ∈ rest.head?, d.level ≤ c.level) ∧ nodeOk c = true ∧ forestOk p rest = true := by
  cases rest with
  | nil => simp [forestOk]; tauto
  | cons d r2 => simp [forestOk]; tauto

theorem forestOk_append {p : Nat} {cs : List Node} {n : Node}
    (hcs : forestOk p cs = true)
    (hlast : ∀ c ∈ cs.getLast?, n.level ≤ c.level)
    (hp : p < n.level) (h6 : n.level ≤ 6) (ht : pyStrip n.title = n.title)
    (hn : nodeOk n = true) :
    forestOk p (cs ++ [n]) = true := by
  induction cs with
  | nil =>
    rw [List.nil_append]
    exact forestOk_cons.2 ⟨hp, h6, ht, by simp, hn, rfl⟩
  | cons c rest ih =>
    have h := forestOk_cons.1 hcs
    rw [List.cons_append]
    apply forestOk_cons.2
    refine ⟨h.1, h.2.1, h.2.2.1, ?_, h.2.2.2.2.1, ih h.2.2.2.2.2 ?_⟩
    · cases rest with
      | nil =>
        intro d hd
        simp at hd
        subst hd
        exact hlast c (by simp)
      | cons d2 r2 =>
        intro d hd
        exact h.2.2.2.1 d hd
    · intro x hx
      cases rest with
      | nil => simp at hx
      | cons d2 r2 =>
        apply hlast
        rw [getLast?_cons_ne c (by simp)]
        exact hx

theorem stackOk_close {f g : Frame} {gs : List Frame}
    (h : StackOk (f :: g :: gs)) :
    StackOk (pushChild g (closeFrame f) :: gs) ∧
    (∀ c ∈ (pushChild g (closeFrame f)).children, f.level ≤ c.level) := by
  obtain ⟨-, hlast, hchain, hok⟩ := h
  rw [List.chain'_cons] at hchain
  obtain ⟨hfg, hgrest⟩ := hchain
  have hokf := hok f (by simp)
  have hokg := hok g (by simp)
  have hchildren : ∀ c ∈ (pushChild g (closeFrame f)).children, f.level ≤ c.level := by
    intro c hc
    rcases List.mem_append.1 hc with hc | hc
    · exact hfg.2 c hc
    · simp at hc
      subst hc
      exact le_refl _
  refine ⟨⟨by simp, ?_, ?_, ?_⟩, hchildren⟩
  · intro b hb
    cases gs with
    | nil =>
      simp at hb
      subst hb
      exact hlast g (by simp [List.getLast?_cons_cons])
    | cons g2 gs2 =>
      rw [List.getLast?_cons_cons] at hb
      exact hlast b (by rw [List.getLast?_cons_cons, List.getLast?_cons_cons]; exact hb)
  · rw [List.chain'_cons'] at hgrest ⊢
    refine ⟨?_, hgrest.2⟩
    intro y hy
    have := hgrest.1 y hy
    exact ⟨this.1, this.2⟩
  · intro fr hfr
    rcases List.mem_cons.1 hfr with hfr | hfr
    · subst hfr
      refine ⟨?_, hokg.2.1, hokg.2.2⟩
      exact forestOk_append hokg.1
        (fun c hc => hfg.2 c (List.mem_of_getLast?_eq_some hc))
        hfg.1 hokf.2.2 hokf.2.1 hokf.1
    · exact hok fr (by simp [hfr])

theorem headingMatch_bounds {line : Str} {l : Nat} {t : Str}
    (h : headingMatch line = some (l, t)) : 1 ≤ l ∧ l ≤ 6 := by
  simp only [headingMatch] at h
  split at h
  · next hc =>
    simp only [Option.some.injEq, Prod.mk.injEq] at h
    obtain ⟨h1, -⟩ := h
    omega
  · exact absurd h (by simp)

theorem popFramesFuel_ok {level : Nat} (hlv : 1 ≤ level) :
    ∀ (fuel : Nat) (s : List Frame), StackOk s → s.length ≤ fuel →
      (∀ h ∈ s.head?, ∀ c ∈ h.children, level ≤ c.level) →
      StackOk (popFramesFuel level fuel s) ∧
      (∀ h ∈ (popFramesFuel level fuel s).head?,
        h.level < level ∧ ∀ c ∈ h.children, level ≤ c.level) := by
  intro fuel
  induction fuel with
  | zero =>
    intro s hs hlen _
    cases s with
    | nil => exact absurd rfl hs.1
    | cons f r => simp at hlen
  | succ fuel ih =>
    intro s hs hlen hh
    cases s with
    | nil => exact absurd rfl hs.1
    | cons f rest =>
      by_cases hle : level ≤ f.level
      · cases rest with
        | nil =>
          exfalso
          have hf0 : f.level = 0 := hs.2.1 f (by simp)
          omega
        | cons g gs =>
          have hc := stackOk_close hs
          have hres0 : popFramesFuel level (fuel + 1) (f :: g :: gs) =
              if level ≤ f.level then popFramesFuel level fuel (pushChild g (closeFrame f) :: gs)
              else f :: g :: gs := rfl
          rw [hres0, if_pos hle]
          apply ih _ hc.1 (by simp at hlen ⊢; omega)
          intro h hh2 c hcc
          simp at hh2
          subst hh2
          have := hc.2 c hcc
          omega
      · have hres : popFramesFuel level (fuel + 1) (f :: rest) = f :: rest := by
          cases rest with
          | nil =>
            have h0 : popFramesFuel level (fuel + 1) [f] =
                if level ≤ f.level then [] else [f] := rfl
            rw [h0, if_neg hle]
          | cons g gs =>
            have h0 : popFramesFuel level (fuel + 1) (f :: g :: gs) =
                if level ≤ f.level then popFramesFuel level fuel (pushChild g (closeFrame f) :: gs)
                else f :: g :: gs := rfl
            rw [h0, if_neg hle]
        rw [hres]
        refine ⟨hs, ?_⟩
        intro h hh2
        simp at hh2
        subst hh2
        exact ⟨by omega, hh _ (by simp)⟩

theorem mdStep_inv {s : List Frame} (h : StackInv s) (line : Str) :
    StackInv (mdStep s line) := by
  cases hm : headingMatch line with
  | none =>
    obtain ⟨⟨hne, hlast, hchain, hok⟩, hhead⟩ := h
    cases s with
    | nil => exact absurd rfl hne
    | cons f rest =>
      have hres : mdStep (f :: rest) line =
          { f with content_lines := f.content_lines ++ [line] } :: rest := by
        rw [mdStep.eq_def, hm]
      rw [hres]
      refine ⟨⟨by simp, ?_, ?_, ?_⟩, ?_⟩
      · intro b hb
        cases rest with
        | nil =>
          simp at hb
          subst hb
          exact hlast f (by simp)
        | cons g gs =>
          rw [getLast?_cons_ne _ (by simp)] at hb
          exact hlast b (by rw [getLast?_cons_ne _ (by simp)]; exact hb)
      · rw [List.chain'_cons'] at hchain ⊢
        exact ⟨fun y hy => hchain.1 y hy, hchain.2⟩
      · intro fr hfr
        rcases List.mem_cons.1 hfr with hfr | hfr
        · subst hfr
          exact hok f (by simp)
        · exact hok fr (by simp [hfr])
      · intro hd hh2
        simp at hh2
        subst hh2
        exact hhead f (by simp)
  | some lt =>
    obtain ⟨l, t⟩ := lt
    have hb := headingMatch_bounds hm
    have hh0 : ∀ hd ∈ s.head?, ∀ c ∈ hd.children, l ≤ c.level := by
      intro hd hhd c hc
      rw [h.2 hd hhd] at hc
      simp at hc
    have hp := popFramesFuel_ok hb.1 s.length s h.1 (le_refl _) hh0
    have hres : mdStep s line = ⟨l, pyStrip t, [], []⟩ :: popFrames l s := by
      rw [mdStep.eq_def, hm]
    rw [hres]
    rw [popFrames]
    obtain ⟨hOk, hHead⟩ := hp
    refine ⟨⟨by simp, ?_, ?_, ?_⟩, ?_⟩
    · intro b hb2
      rw [getLast?_cons_ne _ hOk.1] at hb2
      exact hOk.2.1 b hb2
    · rw [List.chain'_cons']
      refine ⟨?_, hOk.2.2.1⟩
      intro y hy
      have := hHead y hy
      exact ⟨this.1, this.2⟩
    · intro fr hfr
      rcases List.mem_cons.1 hfr with hfr | hfr
      · subst hfr
        exact ⟨rfl, pyStrip_idem t, hb.2⟩
      · exact hOk.2.2.2 fr hfr
    · intro hd hh2
      simp at hh2
      subst hh2
      rfl

theorem stackInv_foldl {s : List Frame} (h : StackInv s) (lines : List Str) :
    StackInv (lines.foldl mdStep s) := by
  induction lines generalizing s with
  | nil => exact h
  | cons a rest ih => exact ih (mdStep_inv h a)

theorem stackInv_run (lines : List Str) : StackInv (lines.foldl mdStep [rootFrame]) := by
  apply stackInv_foldl
  refine ⟨⟨by simp, ?_, ?_, ?_⟩, ?_⟩
  · intro b hb
    simp at hb
    subst hb
    rfl
  · simp
  · intro f hf
    simp at hf
    subst hf
    exact ⟨rfl, by decide, by decide⟩
  · intro hd hh
    simp at hh
    subst hh
    rfl

theorem collapseFuel_ok : ∀ (fuel : Nat) (s : List Frame), StackOk s → s.length ≤ fuel →
    nodeOk (collapseFuel fuel s) = true ∧ (collapseFuel fuel s).level = 0 := by
  intro fuel
  induction fuel with
  | zero =>
    intro s hs hlen
    cases s with
    | nil => exact absurd rfl hs.1
    | cons f r => simp at hlen
  | succ fuel ih =>
    intro s hs hlen
    cases s with
    | nil => exact absurd rfl hs.1
    | cons f rest =>
      cases rest with
      | nil =>
        refine ⟨(hs.2.2.2 f (by simp)).1, hs.2.1 f (by simp)⟩
      | cons g gs =>
        have hres : collapseFuel (fuel + 1) (f :: g :: gs) =
            collapseFuel fuel (pushChild g (closeFrame f) :: gs) := rfl
        rw [hres]
        exact ih _ (stackOk_close hs).1 (by simp at hlen ⊢; omega)

theorem parseLines_nodeOk (lines : List Str) :
    nodeOk (parseLines lines) = true ∧ (parseLines lines).level = 0 := by
  rw [parseLines, collapse]
  exact collapseFuel_ok _ _ (stackInv_run lines).1 (le_refl _)

mutual

theorem nodeOk_levelsGt (n : Node) (h : nodeOk n = true) : childrenLevelsGt n = true := by
  cases n with
  | mk l t cl ch =>
    rw [childrenLevelsGt]
    rw [nodeOk] at h
    exact forestOk_levelsGt l ch h

theorem forestOk_levelsGt (p : Nat) (cs : List Node) (h : forestOk p cs = true) :
    forestLevelsGt p cs = true := by
  cases cs with
  | nil => rfl
  | cons c rest =>
    have hc := forestOk_cons.1 h
    rw [forestLevelsGt]
    simp only [Bool.and_eq_true, decide_eq_true_eq]
    exact ⟨⟨hc.1, nodeOk_levelsGt c hc.2.2.2.2.1⟩, forestOk_levelsGt p rest hc.2.2.2.2.2⟩

end

/-! ## Characterization of the top-level extractor as a preorder filter -/

theorem preorderNode_eq (c : Node) :
    preorderNode c = c :: preorderChildren c.children := by
  cases c with
  | mk l t cl ch => rw [preorderNode]; rfl

mutual

theorem walkTop_eq_preorder (tl : Int) (n : Node) :
    walkTop tl n =
      ((preorderChildren n.children).filter fun m => decide ((m.level : Int) = tl)).map
        fun m => ([m.title], _section_content_with_children m) := by
  cases n with
  | mk l t cl ch =>
    rw [walkTop]
    exact walkTopChildren_eq_preorder tl ch

theorem walkTopChildren_eq_preorder (tl : Int) (cs : List Node) :
    walkTopChildren tl cs =
      ((preorderChildren cs).filter fun m => decide ((m.level : Int) = tl)).map
        fun m => ([m.title], _section_content_with_children m) := by
  cases cs with
  | nil => rfl
  | cons c rest =>
    rw [walkTopChildren, preorderChildren, preorderNode_eq]
    rw [walkTop_eq_preorder tl c, walkTopChildren_eq_preorder tl rest]
    simp only [List.cons_append, List.filter_cons, List.filter_append, List.map_append]
    by_cases hc : (c.level : Int) = tl
    · rw [if_pos hc, if_pos (by simpa using hc)]
      simp [Node.children]
    · rw [if_neg hc, if_neg (by simpa using hc)]
      simp [Node.children]

end

/-! ## Levels outside 1..6 never match in a parsed tree -/

mutual

theorem walkTop_out_of_range (tl : Int) (htl : tl < 1 ∨ 6 < tl) (n : Node)
    (h : nodeOk n = true) : walkTop tl n = [] := by
  cases n with
  | mk l t cl ch =>
    rw [walkTop]
    rw [nodeOk] at h
    exact walkTopChildren_out_of_range tl htl l ch h

theorem walkTopChildren_out_of_range (tl : Int) (htl : tl < 1 ∨ 6 < tl) (p : Nat)
    (cs : List Node) (h : forestOk p cs = true) : walkTopChildren tl cs = [] := by
  cases cs with
  | nil => rfl
  | cons c rest =>
    have hc := forestOk_cons.1 h
    rw [walkTopChildren]
    rw [if_neg (by
      intro heq
      have h1 : 1 ≤ c.level := by omega
      have h6 : c.level ≤ 6 := hc.2.1
      rcases htl with htl | htl <;> omega)]
    rw [walkTop_out_of_range tl htl c hc.2.2.2.2.1,
      walkTopChildren_out_of_range tl htl p rest hc.2.2.2.2.2]
    rfl

end

/-! ## Claim theorems (first group) -/

/-- C2: for every input text, in the tree `parse_markdown` returns every
Node's children all have level strictly greater than the Node's own level;
and during construction (after any sequence of lines) the stack is never
empty and its bottom entry is the level-0 root, so no heading ever pops the
stack below the root. -/
theorem parse_child_levels_gt_and_stack_bottom_root (md_text : Str) (lines : List Str) :
    childrenLevelsGt (parse_markdown md_text) = true ∧
    lines.foldl mdStep [rootFrame] ≠ [] ∧
    ∀ b ∈ (lines.foldl mdStep [rootFrame]).getLast?, b.level = 0 :=
  ⟨nodeOk_levelsGt _ (parseLines_nodeOk (pySplitlines md_text)).1,
   (stackInv_run lines).1.1, (stackInv_run lines).1.2.1⟩

/-- C8: the top-level extractor's traversal is depth-first pre-order over the
full tree and is not pruned at matches: its output is exactly one record, in
pre-order, for every node of the tree whose level equals `top_level`,
regardless of whether an ancestor or descendant also matches (so nested
same-level nodes each produce their own, overlapping record). -/
theorem collect_top_level_is_unpruned_preorder_filter (root : Node) (top_level : Int) :
    collect_sections_top_level root top_level =
      ((preorderChildren root.children).filter fun m => decide ((m.level : Int) = top_level)).map
        fun m => ([m.title], _section_content_with_children m) := by
  rw [collect_sections_top_level]
  exact walkTop_eq_preorder top_level root

/-- C9: in both extraction modes every emitted content string is fully
stripped: its first and its last character (when it has any) are not
whitespace, because the flatten extractor strips each Node's content before
emitting and the top-level serializer joins blocks that are each stripped. -/
theorem emitted_content_no_outer_whitespace (root : Node) (lvl : Int) (r : List Str × Str) :
    (r ∈ collect_sections_top_level root lvl →
      (∀ a ∈ r.2.head?, wsChar a = false) ∧ (∀ a ∈ r.2.getLast?, wsChar a = false)) ∧
    (r ∈ collect_sections_flatten root lvl →
      (∀ a ∈ r.2.head?, wsChar a = false) ∧ (∀ a ∈ r.2.getLast?, wsChar a = false)) := by
  constructor
  · intro hr
    obtain ⟨m, -, hm⟩ := mem_walkTop_shape lvl root r hr
    have hs : pyStrip r.2 = r.2 := by
      rw [hm]
      exact section_content_stripped m
    exact ⟨head?_of_stripped hs, getLast?_of_stripped hs⟩
  · intro hr
    have hs : pyStrip r.2 = r.2 := flattenWalk_content_stripped lvl [] root r hr
    exact ⟨head?_of_stripped hs, getLast?_of_stripped hs⟩

/-- C10: for every input text, the top-level extractor returns the empty
sequence whenever `top_level` lies outside 1..6, since only children of
visited nodes are tested (never the level-0 root) and every real heading
node's level is between 1 and 6. -/
theorem collect_top_level_out_of_range_empty (md_text : Str) (top_level : Int)
    (h : top_level < 1 ∨ 6 < top_level) :
    collect_sections_top_level (parse_markdown md_text) top_level = [] := by
  rw [collect_sections_top_level]
  exact walkTop_out_of_range top_level h _ (parseLines_nodeOk (pySplitlines md_text)).1

/-- Witness for C10 at a concrete document and the out-of-range level 0. -/
theorem collect_top_level_out_of_range_empty_witness :
    ((0 : Int) < 1 ∨ 6 < (0 : Int)) ∧
    collect_sections_top_level (parse_markdown ('#' :: ' ' :: 'a' :: [])) 0 = [] :=
  ⟨Or.inl (by decide),
   collect_top_level_out_of_range_empty ('#' :: ' ' :: 'a' :: []) 0 (Or.inl (by decide))⟩

/-! ## Content trimming facts -/

theorem dropTrailingBlanks_append_blanks {ls blanks : List Str}
    (hb : ∀ b ∈ blanks, pyStrip b = []) :
    dropTrailingBlanks (ls ++ blanks) = dropTrailingBlanks ls := by
  rw [dropTrailingBlanks, dropTrailingBlanks, List.reverse_append]
  rw [List.dropWhile_append_of_pos]
  intro a ha
  rw [List.mem_reverse] at ha
  simp [hb a ha]

theorem dropTrailingBlanks_eq_self {ls : List Str} (h : ∀ b ∈ ls.getLast?, pyStrip b ≠ []) :
    dropTrailingBlanks ls = ls := by
  rw [dropTrailingBlanks]
  rw [dropWhile_eq_self_of_head (by
    intro a ha
    rw [List.head?_reverse] at ha
    simpa using h a ha)]
  simp

mutual

theorem flattenWalk_content_shape (s : Int) (tp : List (Nat × Str)) (n : Node)
    (r : List Str × Str) (hr : r ∈ (flattenWalk s tp n).1) :
    ∃ m : Node, r.2 = pyStrip (Node.content m) := by
  cases n with
  | mk l t cl ch =>
    rw [flattenWalk] at hr
    by_cases hl : (l : Int) ≥ s
    · rw [if_pos hl] at hr
      simp only [List.mem_cons] at hr
      rcases hr with hr | hr
      · exact ⟨Node.mk l t cl ch, by rw [hr]⟩
      · exact flattenWalkChildren_content_shape s _ ch r hr
    · rw [if_neg hl] at hr
      exact flattenWalkChildren_content_shape s tp ch r hr

theorem flattenWalkChildren_content_shape (s : Int) (tp : List (Nat × Str))
    (cs : List Node) (r : List Str × Str)
    (hr : r ∈ (flattenWalkChildren s tp cs).1) :
    ∃ m : Node, r.2 = pyStrip (Node.content m) := by
  cases cs with
  | nil => rw [flattenWalkChildren] at hr; simp at hr
  | cons c rest =>
    rw [flattenWalkChildren] at hr
    simp only [List.mem_append] at hr
    rcases hr with h1 | h1
    · exact flattenWalk_content_shape s tp c r h1
    · exact flattenWalkChildren_content_shape s _ rest r h1

end

/-! ## Claim theorems: content post-processing (C3) -/

/-- C3 counterexample: for the two-line document `"# A"`, `" x"`, the `A`
node's `content()` (trailing-blank removal only) is `" x"`, yet the flatten
extractor emits `"x"`: emitted content is additionally stripped, so leading
whitespace IS removed, refuting the claim that trailing-blank removal is the
only post-processing applied to emitted content. -/
theorem flatten_emitted_content_strips_leading_cex :
    (parseLines [['#', ' ', 'A'], [' ', 'x']]).children.map Node.content = [[' ', 'x']] ∧
    collect_sections_flatten (parseLines [['#', ' ', 'A'], [' ', 'x']]) 1 =
      [([['A']], ['x'])] := by
  decide

/-- C3 amended: a Node's `content()` itself performs exactly the
trailing-blank-line removal (blank suffixes are dropped, and a list with no
blank suffix is joined verbatim, so there is no leading trim there); but both
extractors emit only after a further full strip — every flatten record's
content is the pyStrip image of some node's `content()`. -/
theorem content_trailing_trim_then_emit_strip (l : Nat) (t : Str) (ls blanks : List Str)
    (ch : List Node) (root : Node) (s : Int) (r : List Str × Str)
    (hb : ∀ b ∈ blanks, pyStrip b = []) (hl : ∀ b ∈ ls.getLast?, pyStrip b ≠ []) :
    Node.content (.mk l t (ls ++ blanks) ch) = List.intercalate ['\n'] ls ∧
    (r ∈ collect_sections_flatten root s → ∃ m : Node, r.2 = pyStrip (Node.content m)) := by
  constructor
  · rw [Node.content]
    rw [show (Node.mk l t (ls ++ blanks) ch).content_lines = ls ++ blanks from rfl]
    rw [dropTrailingBlanks_append_blanks hb, dropTrailingBlanks_eq_self hl]
  · intro hr
    exact flattenWalk_content_shape s [] root r hr

/-- Witness for the amended C3 at a concrete node and document. -/
theorem content_trailing_trim_then_emit_strip_witness :
    ((∀ b ∈ [([] : Str), [' ']], pyStrip b = []) ∧
      (∀ b ∈ ([[' ', 'x']] : List Str).getLast?, pyStrip b ≠ [])) ∧
    (Node.content (.mk 1 ['A'] ([[' ', 'x']] ++ [[], [' ']]) []) =
        List.intercalate ['\n'] [[' ', 'x']] ∧
      (([['A']], ['x']) ∈
          collect_sections_flatten (parseLines [['#', ' ', 'A'], [' ', 'x']]) 1 →
        ∃ m : Node, (([['A']], ['x']) : List Str × Str).2 = pyStrip (Node.content m))) :=
  ⟨⟨by decide, by decide⟩,
   content_trailing_trim_then_emit_strip 1 ['A'] [[' ', 'x']] [[], [' ']] []
     (parseLines [['#', ' ', 'A'], [' ', 'x']]) 1 ([['A']], ['x'])
     (by decide) (by decide)⟩

/-! ## Claim theorems: bare marker lines (C4) -/

/-- C4 counterexample: the line `"###"` (markers only, no trailing
whitespace) is NOT accepted as a heading: the parsed tree has no child and
the line lands in the root's content, because `\s+` in the heading regex
demands at least one whitespace character after the markers. -/
theorem bare_marker_line_is_content_cex :
    (parseLines [['#', '#', '#']]).children.length = 0 ∧
    (parseLines [['#', '#', '#']]).content_lines = [['#', '#', '#']] := by
  decide

/-- C4 amended: a line of one to six marker characters followed by at least
one whitespace character and nothing else IS accepted as a heading with an
empty title, while a line of only marker characters (no trailing whitespace)
is treated as plain content. -/
theorem marker_only_line_needs_trailing_whitespace (k : Nat) (ws : Str)
    (hk1 : 1 ≤ k) (hk6 : k ≤ 6) (hws : ws ≠ []) (hall : ∀ c ∈ ws, wsChar c = true) :
    parseLines [List.replicate k '#' ++ ws] =
      Node.mk 0 "ROOT".data [] [Node.mk k [] [] []] ∧
    parseLines [List.replicate k '#'] =
      Node.mk 0 "ROOT".data [List.replicate k '#'] [] := by
  have hhash : ∀ c ∈ ws, (c = '#') = False := by
    intro c hc
    simp only [eq_iff_iff, iff_false]
    intro hceq
    subst hceq
    have := hall _ hc
    simp [wsChar] at this
  constructor
  · have htw : (List.replicate k '#' ++ ws).takeWhile (fun c => c = '#') =
        List.replicate k '#' := by
      rw [List.takeWhile_append_of_pos (by
        intro a ha
        rw [List.eq_of_mem_replicate ha]
        simp)]
      cases ws with
      | nil => simp
      | cons c rest =>
        rw [List.takeWhile_cons_of_neg (by simp [hhash c (by simp)])]
        simp
    have hdw : (List.replicate k '#' ++ ws).dropWhile (fun c => c = '#') = ws := by
      rw [List.dropWhile_append_of_pos (by
        intro a ha
        rw [List.eq_of_mem_replicate ha]
        simp)]
      cases ws with
      | nil => simp
      | cons c rest =>
        rw [List.dropWhile_cons_of_neg (by simp [hhash c (by simp)])]
    have hm : headingMatch (List.replicate k '#' ++ ws) = some (k, []) := by
      simp only [headingMatch, htw, hdw]
      rw [if_pos ?cond]
      case cond =>
        refine ⟨by simpa using hk1, by simpa using hk6, ?_⟩
        cases ws with
        | nil => exact absurd rfl hws
        | cons c rest => simp [hall c (by simp)]
      rw [List.dropWhile_eq_nil_iff.2 hall]
      simp
    have hstep : parseLines [List.replicate k '#' ++ ws] =
        collapse (⟨k, [], [], []⟩ :: popFramesFuel k 1 [rootFrame]) := by
      rw [parseLines]
      simp only [List.foldl]
      rw [mdStep.eq_def, hm]
      rfl
    rw [hstep]
    have hpop : popFramesFuel k 1 [rootFrame] = [rootFrame] := by
      rw [show popFramesFuel k 1 [rootFrame] =
        if k ≤ rootFrame.level then [] else [rootFrame] from rfl]
      rw [if_neg (by simp [rootFrame]; omega)]
    rw [hpop]
    rfl
  · have hdw2 : (List.replicate k '#').dropWhile (fun c => c = '#') = [] := by
      rw [List.dropWhile_eq_nil_iff]
      intro a ha
      rw [List.eq_of_mem_replicate ha]
      simp
    have hm2 : headingMatch (List.replicate k '#') = none := by
      simp only [headingMatch, hdw2]
      rw [if_neg (by simp)]
    rw [parseLines]
    simp only [List.foldl]
    rw [mdStep.eq_def, hm2]
    rfl

/-- Witness for the amended C4 at three markers and one space. -/
theorem marker_only_line_needs_trailing_whitespace_witness :
    (1 ≤ 3 ∧ 3 ≤ 6 ∧ ([' '] : Str) ≠ [] ∧ ∀ c ∈ ([' '] : Str), wsChar c = true) ∧
    (parseLines [List.replicate 3 '#' ++ [' ']] =
        Node.mk 0 "ROOT".data [] [Node.mk 3 [] [] []] ∧
      parseLines [List.replicate 3 '#'] =
        Node.mk 0 "ROOT".data [List.replicate 3 '#'] []) :=
  ⟨⟨by decide, by decide, by decide, by decide⟩,
   marker_only_line_needs_trailing_whitespace 3 [' ']
     (by decide) (by decide) (by decide) (by decide)⟩

/-! ## Claim theorems: the virtual root and the extractors (C5) -/

/-- C5 counterexample: with `start_level = 0` (an allowed integer parameter)
the flatten extractor emits the virtual root itself — the empty document
yields exactly one record, whose path is the sentinel title `ROOT`. -/
theorem flatten_level_zero_emits_root_cex :
    collect_sections_flatten (parseLines []) 0 = [(["ROOT".data], [])] := by
  decide

/-- C5 amended: the top-level extractor never emits the root for any level
parameter, and the flatten extractor never emits it when `start_level ≥ 1`:
in both cases the output is entirely determined by the root's children,
independent of the root's own title and content (with `start_level ≤ 0`,
flatten does emit the root, as the counterexample shows). -/
theorem root_never_emitted_for_positive_levels (t t2 : Str) (cl cl2 : List Str)
    (kids : List Node) (top_level s : Int) (hs : 1 ≤ s) :
    collect_sections_top_level (Node.mk 0 t cl kids) top_level =
      collect_sections_top_level (Node.mk 0 t2 cl2 kids) top_level ∧
    collect_sections_flatten (Node.mk 0 t cl kids) s =
      collect_sections_flatten (Node.mk 0 t2 cl2 kids) s := by
  constructor
  · rw [collect_sections_top_level, collect_sections_top_level, walkTop, walkTop]
  · rw [collect_sections_flatten, collect_sections_flatten, flattenWalk, flattenWalk]
    rw [if_neg (by omega), if_neg (by omega)]

/-- Witness for the amended C5 at concrete roots differing in title and
content. -/
theorem root_never_emitted_for_positive_levels_witness :
    (1 : Int) ≤ 1 ∧
    (collect_sections_top_level (Node.mk 0 "ROOT".data [['y']] [Node.mk 1 ['a'] [] []]) 1 =
        collect_sections_top_level (Node.mk 0 ['x'] [] [Node.mk 1 ['a'] [] []]) 1 ∧
      collect_sections_flatten (Node.mk 0 "ROOT".data [['y']] [Node.mk 1 ['a'] [] []]) 1 =
        collect_sections_flatten (Node.mk 0 ['x'] [] [Node.mk 1 ['a'] [] []]) 1) :=
  ⟨by decide,
   root_never_emitted_for_positive_levels "ROOT".data ['x'] [['y']] []
     [Node.mk 1 ['a'] [] []] 1 1 (by decide)⟩

/-! ## Dict behaviour and the unwind of the flatten walk -/

theorem dropWhile_ws_idem (t : Str) :
    (t.dropWhile wsChar).dropWhile wsChar = t.dropWhile wsChar :=
  dropWhile_eq_self_of_head head?_dropWhile_ws

theorem pyStrip_dropWhile (t : Str) : pyStrip (t.dropWhile wsChar) = pyStrip t := by
  rw [pyStrip_eq, pyStrip_eq, dropWhile_ws_idem]

theorem dictSet_append {k : Nat} {v : Str} {tp : List (Nat × Str)}
    (h : ∀ k' ∈ tp.map Prod.fst, k' ≠ k) : dictSet k v tp = tp ++ [(k, v)] := by
  induction tp with
  | nil => rfl
  | cons e rest ih =>
    obtain ⟨k', v'⟩ := e
    show (if k' = k then (k, v) :: rest else (k', v') :: dictSet k v rest) =
      (k', v') :: rest ++ [(k, v)]
    rw [if_neg (h k' (by simp))]
    rw [ih (fun x hx => h x (by simp [hx]))]
    simp

theorem dictErase_of_not_mem {k : Nat} {tp : List (Nat × Str)}
    (h : ∀ k' ∈ tp.map Prod.fst, k' ≠ k) : dictErase k tp = tp := by
  induction tp with
  | nil => rfl
  | cons e rest ih =>
    rw [dictErase, List.filter_cons]
    rw [if_pos (by simpa using h e.1 (by simp))]
    rw [show List.filter (fun e => e.1 != k) rest = dictErase k rest from rfl]
    rw [ih (fun x hx => h x (by simp [hx]))]

theorem dictErase_append_self {k : Nat} {v : Str} {tp : List (Nat × Str)}
    (h : ∀ k' ∈ tp.map Prod.fst, k' ≠ k) : dictErase k (tp ++ [(k, v)]) = tp := by
  rw [dictErase, List.filter_append]
  rw [show List.filter (fun e => e.1 != k) tp = dictErase k tp from rfl]
  rw [dictErase_of_not_mem h]
  simp

mutual

/-- Leaving a node's subtree restores the title map exactly (for trees whose
child levels strictly increase, with all current keys below the node's
level): the cleanup-on-unwind removes precisely the entry the node added. -/
theorem flattenWalk_restores (s : Int) (tp : List (Nat × Str)) (n : Node)
    (hn : nodeOk n = true) (hk : ∀ k ∈ tp.map Prod.fst, k < n.level) :
    (flattenWalk s tp n).2 = tp := by
  cases n with
  | mk l t cl ch =>
    rw [nodeOk] at hn
    rw [flattenWalk]
    by_cases hl : (l : Int) ≥ s
    · rw [if_pos hl]
      have hset : dictSet l t tp = tp ++ [(l, t)] :=
        dictSet_append (fun k' hk' => Nat.ne_of_lt (hk k' hk'))

      have hrec : (flattenWalkChildren s (dictSet l t tp) ch).2 = dictSet l t tp := by
        apply flattenWalkChildren_restores s _ l ch hn
        intro k hkm c hc hlev
        rw [hset] at hkm
        simp at hkm
        rcases hkm with hkm | hkm
        · exact lt_trans (hk k (by simp [List.mem_map]; exact hkm)) hlev
        · rw [hkm]; exact hlev
      show dictErase l (flattenWalkChildren s (dictSet l t tp) ch).2 = tp
      rw [hrec, hset]
      exact dictErase_append_self (fun k' hk' => Nat.ne_of_lt (hk k' hk'))
    · rw [if_neg hl]
      have hrec : (flattenWalkChildren s tp ch).2 = tp := by
        apply flattenWalkChildren_restores s tp l ch hn
        intro k hkm c hc hlev
        exact lt_trans (hk k hkm) hlev
      show dictErase l (flattenWalkChildren s tp ch).2 = tp
      rw [hrec]
      exact dictErase_of_not_mem (fun k' hk' => Nat.ne_of_lt (hk k' hk'))

theorem flattenWalkChildren_restores (s : Int) (tp : List (Nat × Str)) (p : Nat)
    (cs : List Node) (hf : forestOk p cs = true)
    (hk : ∀ k ∈ tp.map Prod.fst, ∀ c ∈ cs, p < c.level → k < c.level) :
    (flattenWalkChildren s tp cs).2 = tp := by
  cases cs with
  | nil => rfl
  | cons c rest =>
    have hc := forestOk_cons.1 hf
    rw [flattenWalkChildren]
    show (flattenWalkChildren s (flattenWalk s tp c).2 rest).2 = tp
    rw [flattenWalk_restores s tp c hc.2.2.2.2.1
      (fun k hkm => hk k hkm c (by simp) hc.1)]
    exact flattenWalkChildren_restores s tp p rest hc.2.2.2.2.2
      (fun k hkm c2 hc2 hl2 => hk k hkm c2 (by simp [hc2]) hl2)

end

/-- A reconstructed-style heading line (markers, one space, arbitrary title
text) matches, with the remainder after the whitespace run as the title
group. -/
theorem headingMatch_marks (k : Nat) (hk1 : 1 ≤ k) (hk6 : k ≤ 6) (t : Str) :
    headingMatch (List.replicate k '#' ++ ' ' :: t) = some (k, t.dropWhile wsChar) := by
  have htw : (List.replicate k '#' ++ ' ' :: t).takeWhile (fun c => c = '#') =
      List.replicate k '#' := by
    rw [List.takeWhile_append_of_pos (by
      intro a ha
      rw [List.eq_of_mem_replicate ha]
      simp)]
    rw [List.takeWhile_cons_of_neg (by simp)]
    simp
  have hdw : (List.replicate k '#' ++ ' ' :: t).dropWhile (fun c => c = '#') = ' ' :: t := by
    rw [List.dropWhile_append_of_pos (by
      intro a ha
      rw [List.eq_of_mem_replicate ha]
      simp)]
    rw [List.dropWhile_cons_of_neg (by simp)]
  simp only [headingMatch, htw, hdw]
  rw [if_pos ⟨by simpa using hk1, by simpa using hk6, by simp [wsChar]⟩]
  rw [List.dropWhile_cons_of_pos (by simp [wsChar])]
  simp

/-! ## Claim theorem: flatten-mode unwind (C7) -/

/-- C7: leaving a node's subtree removes exactly that node's own level entry
from the title map (the map is restored on unwind, first conjunct, proved for
every well-formed tree and start level); consequently, for sibling sections A
then B at level 2, each with its own level-3 descendant X resp. Y with
distinct titles, the flatten extractor's record for B's descendant has path
[B, Y] — it never contains the title of A's already-exited descendant X. -/
theorem flatten_unwind_restores_map_and_blocks_cross_branch_titles
    (s : Int) (tp : List (Nat × Str)) (n : Node) (tT tA tX tB tY : Str)
    (hn : nodeOk n = true) (hk : ∀ k ∈ tp.map Prod.fst, k < n.level)
    (h1 : pyStrip tX ≠ pyStrip tB) (h2 : pyStrip tX ≠ pyStrip tY) :
    (flattenWalk s tp n).2 = tp ∧
    collect_sections_flatten
        (parseLines
          [List.replicate 1 '#' ++ ' ' :: tT,
           List.replicate 2 '#' ++ ' ' :: tA,
           List.replicate 3 '#' ++ ' ' :: tX,
           List.replicate 2 '#' ++ ' ' :: tB,
           List.replicate 3 '#' ++ ' ' :: tY]) 2 =
      [([pyStrip tA], []), ([pyStrip tA, pyStrip tX], []),
       ([pyStrip tB], []), ([pyStrip tB, pyStrip tY], [])] ∧
    pyStrip tX ∉ [pyStrip tB, pyStrip tY] := by
  refine ⟨flattenWalk_restores s tp n hn hk, ?_, by simp [h1, h2]⟩
  have hm1 := headingMatch_marks 1 (by decide) (by decide) tT
  have hm2 := headingMatch_marks 2 (by decide) (by decide) tA
  have hm3 := headingMatch_marks 3 (by decide) (by decide) tX
  have hm4 := headingMatch_marks 2 (by decide) (by decide) tB
  have hm5 := headingMatch_marks 3 (by decide) (by decide) tY
  have hparse : parseLines
      [List.replicate 1 '#' ++ ' ' :: tT,
       List.replicate 2 '#' ++ ' ' :: tA,
       List.replicate 3 '#' ++ ' ' :: tX,
       List.replicate 2 '#' ++ ' ' :: tB,
       List.replicate 3 '#' ++ ' ' :: tY] =
      Node.mk 0 "ROOT".data []
        [Node.mk 1 (pyStrip tT) []
          [Node.mk 2 (pyStrip tA) [] [Node.mk 3 (pyStrip tX) [] []],
           Node.mk 2 (pyStrip tB) [] [Node.mk 3 (pyStrip tY) [] []]]] := by
    rw [parseLines]
    simp only [List.foldl]
    simp only [mdStep.eq_def, hm1, hm2, hm3, hm4, hm5, pyStrip_dropWhile]
    rfl
  rw [hparse]
  rfl

/-- Witness and concrete instance for C7 (single-letter titles). -/
theorem flatten_unwind_restores_map_witness :
    (nodeOk (Node.mk 0 [] [] []) = true ∧
      (∀ k ∈ ([] : List (Nat × Str)).map Prod.fst, k < (Node.mk 0 [] [] []).level) ∧
      pyStrip ['x'] ≠ pyStrip ['b'] ∧ pyStrip ['x'] ≠ pyStrip ['y']) ∧
    ((flattenWalk 2 [] (Node.mk 0 [] [] [])).2 = [] ∧
      collect_sections_flatten
          (parseLines
            [List.replicate 1 '#' ++ ' ' :: ['t'],
             List.replicate 2 '#' ++ ' ' :: ['a'],
             List.replicate 3 '#' ++ ' ' :: ['x'],
             List.replicate 2 '#' ++ ' ' :: ['b'],
             List.replicate 3 '#' ++ ' ' :: ['y']]) 2 =
        [([pyStrip ['a']], []), ([pyStrip ['a'], pyStrip ['x']], []),
         ([pyStrip ['b']], []), ([pyStrip ['b'], pyStrip ['y']], [])] ∧
      pyStrip ['x'] ∉ [pyStrip ['b'], pyStrip ['y']]) :=
  ⟨⟨by decide, by simp, by decide, by decide⟩,
   flatten_unwind_restores_map_and_blocks_cross_branch_titles 2 [] (Node.mk 0 [] [] [])
     ['t'] ['a'] ['x'] ['b'] ['y'] (by decide) (by simp) (by decide) (by decide)⟩

/-! ## The extension order on trees under construction -/

theorem append_singleton_cases {α : Type} (xs zs ws : List α) (y v : α)
    (h : xs ++ y :: zs = ws ++ [v]) :
    (zs = [] ∧ ws = xs ∧ v = y) ∨ (∃ zs0, zs = zs0 ++ [v] ∧ ws = xs ++ y :: zs0) := by
  rcases heq : zs.reverse with _ | ⟨z, rev⟩
  · have hz : zs = [] := by
      rw [← List.reverse_reverse zs, heq]
      rfl
    subst hz
    have h2 := List.append_inj' h (by simp)
    exact Or.inl ⟨rfl, h2.1.symm, by simpa using h2.2.symm⟩
  · have hz : zs = rev.reverse ++ [z] := by
      rw [← List.reverse_reverse zs, heq]
      simp
    subst hz
    rw [show xs ++ y :: (rev.reverse ++ [z]) = (xs ++ y :: rev.reverse) ++ [z] by simp] at h
    have h2 := List.append_inj' h (by simp)
    exact Or.inr ⟨rev.reverse, by rw [h2.2.symm], h2.1.symm⟩

theorem Ext_refl (n : Node) : Ext n n := by
  cases n with
  | mk l t cl ch =>
    rcases heq : ch.reverse with _ | ⟨c, rev⟩
    · have hz : ch = [] := by
        rw [← List.reverse_reverse ch, heq]
        rfl
      subst hz
      exact Ext.leaf l t cl cl [] (List.prefix_refl cl)
    · have hz : ch = rev.reverse ++ [c] := by
        rw [← List.reverse_reverse ch, heq]
        simp
      rw [hz]
      have hc : Ext c c := Ext_refl c
      exact Ext.cons l t cl rev.reverse c c [] hc
termination_by sizeOf n
decreasing_by
  simp only [hz]
  have h1 : sizeOf c < sizeOf (rev.reverse ++ [c]) := by
    have := List.sizeOf_lt_of_mem (show c ∈ rev.reverse ++ [c] by simp)
    omega
  simp only [Node.mk.sizeOf_spec]
  omega

theorem Ext_level_title {a b : Node} (h : Ext a b) :
    b.level = a.level ∧ b.title = a.title := by
  cases h with
  | leaf => exact ⟨rfl, rfl⟩
  | cons => exact ⟨rfl, rfl⟩

/-- Inversion principle for the extension order. -/
theorem Ext_inv {b c : Node} (h : Ext b c) :
    (∃ l t cl cl' kids', b = Node.mk l t cl [] ∧ c = Node.mk l t cl' kids' ∧ cl <+: cl') ∨
    (∃ l t cl kids x x' suf, b = Node.mk l t cl (kids ++ [x]) ∧
      c = Node.mk l t cl (kids ++ x' :: suf) ∧ Ext x x') := by
  cases h with
  | leaf l t cl cl' kids' hpre => exact Or.inl ⟨l, t, cl, cl', kids', rfl, rfl, hpre⟩
  | cons l t cl kids x x' suf hx => exact Or.inr ⟨l, t, cl, kids, x, x', suf, rfl, rfl, hx⟩

theorem Ext_trans {a b c : Node} (h1 : Ext a b) (h2 : Ext b c) : Ext a c := by
  induction h1 generalizing c with
  | leaf l t cl cl' kids' hpre =>
    rcases Ext_inv h2 with ⟨l2, t2, cl2, cl2', kids2', hb, hc, hpre2⟩ |
      ⟨l2, t2, cl2, kids2, x, x', suf2, hb, hc, hx⟩
    · rw [Node.mk.injEq] at hb
      subst hc
      obtain ⟨he1, he2, he3, -⟩ := hb
      subst he1
      subst he2
      subst he3
      exact Ext.leaf _ _ _ _ _ (hpre.trans hpre2)
    · rw [Node.mk.injEq] at hb
      subst hc
      obtain ⟨he1, he2, he3, -⟩ := hb
      subst he1
      subst he2
      subst he3
      exact Ext.leaf _ _ _ _ _ hpre
  | cons l t cl kids c0 c0' suf hc0 ih =>
    rcases Ext_inv h2 with ⟨l2, t2, cl2, cl2', kids2', hb, hc, hpre2⟩ |
      ⟨l2, t2, cl2, kids2, x, x', suf2, hb, hc, hx⟩
    · rw [Node.mk.injEq] at hb
      exact absurd hb.2.2.2.symm (by simp)
    · rw [Node.mk.injEq] at hb
      obtain ⟨he1, he2, he3, he4⟩ := hb
      subst he1
      subst he2
      subst he3
      subst hc
      rcases append_singleton_cases kids suf kids2 c0' x he4 with
        ⟨hsuf, hkids, hxeq⟩ | ⟨zs0, hsuf, hkids⟩
      · subst hsuf
        subst hkids
        subst hxeq
        exact Ext.cons _ _ _ _ _ _ _ (ih hx)
      · subst hsuf
        subst hkids
        rw [show (kids ++ c0' :: zs0) ++ x' :: suf2 = kids ++ c0' :: (zs0 ++ x' :: suf2) by
          simp]
        exact Ext.cons l t cl kids c0 c0' (zs0 ++ x' :: suf2) hc0

/-- Inversion at a node whose last child is known: the extension keeps the
earlier children and extends the last one. -/
theorem Ext_inv_concat {l : Nat} {t : Str} {cl : List Str} {kids : List Node} {c F : Node}
    (h : Ext (Node.mk l t cl (kids ++ [c])) F) :
    ∃ c' suf, F = Node.mk l t cl (kids ++ c' :: suf) ∧ Ext c c' := by
  rcases Ext_inv h with ⟨l2, t2, cl2, cl2', kids2', hb, hc, hpre2⟩ |
    ⟨l2, t2, cl2, kids2, x, x', suf2, hb, hc, hx⟩
  · rw [Node.mk.injEq] at hb
    exact absurd hb.2.2.2.symm (by simp)
  · rw [Node.mk.injEq] at hb
    obtain ⟨he1, he2, he3, he4⟩ := hb
    subst he1
    subst he2
    subst he3
    subst hc
    have h2 := List.append_inj' he4 (by simp)
    obtain ⟨hk, hx2⟩ := h2
    simp only [List.cons.injEq, and_true] at hx2
    subst hk
    subst hx2
    exact ⟨x', suf2, rfl, hx⟩

theorem Subtree_trans {a b c : Node} (h1 : Subtree a b) (h2 : Subtree b c) : Subtree a c := by
  induction h2 with
  | refl => exact h1
  | step c0 l t cl ch hc hsub ih => exact Subtree.step _ _ _ _ _ _ hc ih

theorem Subtree_of_mem {c n : Node} (h : c ∈ n.children) : Subtree c n := by
  cases n with
  | mk l t cl ch => exact Subtree.step _ _ _ _ _ _ h (Subtree.refl c)

theorem Ext_pushChild_mono (g : Frame) {x x' : Node} (h : Ext x x') :
    Ext (closeFrame (pushChild g x)) (closeFrame (pushChild g x')) :=
  Ext.cons g.level g.title g.content_lines g.children x x' [] h

theorem Ext_closeFrame_pushChild (g : Frame) (x : Node) :
    Ext (closeFrame g) (closeFrame (pushChild g x)) := by
  rcases heq : g.children.reverse with _ | ⟨c, rev⟩
  · have hz : g.children = [] := by
      rw [← List.reverse_reverse g.children, heq]
      rfl
    show Ext (Node.mk g.level g.title g.content_lines g.children)
      (Node.mk g.level g.title g.content_lines (g.children ++ [x]))
    rw [hz]
    exact Ext.leaf _ _ _ _ _ (List.prefix_refl _)
  · have hz : g.children = rev.reverse ++ [c] := by
      rw [← List.reverse_reverse g.children, heq]
      simp
    show Ext (Node.mk g.level g.title g.content_lines g.children)
      (Node.mk g.level g.title g.content_lines (g.children ++ [x]))
    rw [hz, show (rev.reverse ++ [c]) ++ [x] = rev.reverse ++ c :: [x] by simp]
    exact Ext.cons _ _ _ _ _ _ _ (Ext_refl c)

theorem Ext_collapse_lift {f f' : Frame} (h : Ext (closeFrame f) (closeFrame f'))
    (R : List Frame) : Ext (collapse (f :: R)) (collapse (f' :: R)) := by
  induction R generalizing f f' with
  | nil => exact h
  | cons g gs ih => exact ih (Ext_pushChild_mono g h)

theorem collapse_popFramesFuel {lvl : Nat} (hlv : 1 ≤ lvl) :
    ∀ (fuel : Nat) (s : List Frame), StackOk s → s.length ≤ fuel →
      collapse (popFramesFuel lvl fuel s) = collapse s := by
  intro fuel
  induction fuel with
  | zero =>
    intro s hs hlen
    cases s with
    | nil => exact absurd rfl hs.1
    | cons f r => simp at hlen
  | succ fuel ih =>
    intro s hs hlen
    cases s with
    | nil => exact absurd rfl hs.1
    | cons f rest =>
      by_cases hle : lvl ≤ f.level
      · cases rest with
        | nil =>
          exfalso
          have hf0 : f.level = 0 := hs.2.1 f (by simp)
          omega
        | cons g gs =>
          have hres0 : popFramesFuel lvl (fuel + 1) (f :: g :: gs) =
              if lvl ≤ f.level then popFramesFuel lvl fuel (pushChild g (closeFrame f) :: gs)
              else f :: g :: gs := rfl
          rw [hres0, if_pos hle]
          rw [ih _ (stackOk_close hs).1 (by simp at hlen ⊢; omega)]
          rfl
      · have hres : popFramesFuel lvl (fuel + 1) (f :: rest) = f :: rest := by
          cases rest with
          | nil =>
            have h0 : popFramesFuel lvl (fuel + 1) [f] =
                if lvl ≤ f.level then [] else [f] := rfl
            rw [h0, if_neg hle]
          | cons g gs =>
            have h0 : popFramesFuel lvl (fuel + 1) (f :: g :: gs) =
                if lvl ≤ f.level then popFramesFuel lvl fuel (pushChild g (closeFrame f) :: gs)
                else f :: g :: gs := rfl
            rw [h0, if_neg hle]
        rw [hres]

theorem ext_mdStep {s : List Frame} (h : StackInv s) (line : Str) :
    Ext (collapse s) (collapse (mdStep s line)) := by
  cases hm : headingMatch line with
  | none =>
    obtain ⟨⟨hne, hlast, hchain, hok⟩, hhead⟩ := h
    cases s with
    | nil => exact absurd rfl hne
    | cons f rest =>
      have hres : mdStep (f :: rest) line =
          { f with content_lines := f.content_lines ++ [line] } :: rest := by
        rw [mdStep.eq_def, hm]
      rw [hres]
      apply Ext_collapse_lift
      have hz : f.children = [] := hhead f (by simp)
      show Ext (Node.mk f.level f.title f.content_lines f.children)
        (Node.mk f.level f.title (f.content_lines ++ [line]) f.children)
      rw [hz]
      exact Ext.leaf _ _ _ _ _ (List.prefix_append _ _)
  | some lt =>
    obtain ⟨l, t⟩ := lt
    have hb := headingMatch_bounds hm
    have hres : mdStep s line = ⟨l, pyStrip t, [], []⟩ :: popFrames l s := by
      rw [mdStep.eq_def, hm]
    rw [hres]
    have hcol : collapse (popFrames l s) = collapse s := by
      rw [popFrames]
      exact collapse_popFramesFuel hb.1 s.length s h.1 (le_refl _)
    rw [← hcol]
    have hpop := popFramesFuel_ok hb.1 s.length s h.1 (le_refl _) (by
      intro hd hhd c hc
      rw [h.2 hd hhd] at hc
      simp at hc)
    rw [popFrames]
    rcases hR : popFramesFuel l s.length s with _ | ⟨g, gs⟩
    · exfalso
      exact (hR ▸ hpop.1.1) rfl
    · have hcons : collapse (⟨l, pyStrip t, [], []⟩ :: g :: gs) =
          collapse (pushChild g (closeFrame ⟨l, pyStrip t, [], []⟩) :: gs) := rfl
      rw [hcons]
      exact Ext_collapse_lift (Ext_closeFrame_pushChild g _) gs

theorem ext_foldl {s : List Frame} (hs : StackInv s) (ls : List Str) :
    Ext (collapse s) (collapse (ls.foldl mdStep s)) := by
  induction ls generalizing s with
  | nil => exact Ext_refl _
  | cons a rest ih => exact Ext_trans (ext_mdStep hs a) (ih (mdStep_inv hs a))

theorem ext_collapse_head (S : List Frame) (f : Frame) (F : Node)
    (h : Ext (collapse (f :: S)) F) :
    ∃ n', Subtree n' F ∧ Ext (closeFrame f) n' := by
  induction S generalizing f F with
  | nil => exact ⟨F, Subtree.refl F, h⟩
  | cons g gs ih =>
    have h' : Ext (collapse (pushChild g (closeFrame f) :: gs)) F := h
    obtain ⟨n', hsub, hext⟩ := ih (pushChild g (closeFrame f)) F h'
    obtain ⟨c', suf, heqn, hcc⟩ := Ext_inv_concat hext
    refine ⟨c', Subtree_trans (Subtree_of_mem ?_) hsub, hcc⟩
    rw [heqn]
    show c' ∈ g.children ++ c' :: suf
    simp

/-! ## The flatten walk agrees with its path-chain description -/

theorem sortAsc_of_sorted {l : List Nat} (h : List.Chain' (· ≤ ·) l) : sortAsc l = l := by
  induction l with
  | nil => rfl
  | cons x ys ih =>
    show insertAsc x (sortAsc ys) = x :: ys
    rw [List.chain'_cons'] at h
    rw [ih h.2]
    cases ys with
    | nil => rfl
    | cons y ys2 =>
      rw [insertAsc, if_pos (h.1 y (by simp))]

theorem dictGet_cons_self (k : Nat) (v : Str) (rest : List (Nat × Str)) :
    dictGet ((k, v) :: rest) k = v := by
  rw [dictGet]
  rw [List.find?_cons_of_pos _ (by simp)]

theorem dictGet_cons_ne {k k' : Nat} (v : Str) (rest : List (Nat × Str)) (h : k ≠ k') :
    dictGet ((k, v) :: rest) k' = dictGet rest k' := by
  rw [dictGet, dictGet]
  rw [List.find?_cons_of_neg _ (by simp [h])]

theorem map_dictGet_self {tp : List (Nat × Str)}
    (h : List.Chain' (· < ·) (tp.map Prod.fst)) :
    (tp.map Prod.fst).map (dictGet tp) = tp.map Prod.snd := by
  induction tp with
  | nil => rfl
  | cons e rest ih =>
    obtain ⟨k, v⟩ := e
    simp only [List.map_cons]
    rw [dictGet_cons_self]
    have hpw := (List.chain'_iff_pairwise.1 h)
    simp only [List.map_cons] at hpw
    rw [List.pairwise_cons] at hpw
    have hmap : (rest.map Prod.fst).map (dictGet ((k, v) :: rest)) =
        (rest.map Prod.fst).map (dictGet rest) := by
      apply List.map_congr_left
      intro k' hk'
      exact dictGet_cons_ne v rest (Nat.ne_of_lt (hpw.1 k' hk'))
    rw [hmap, ih (List.chain'_iff_pairwise.2 hpw.2)]

mutual

theorem flattenWalk_eq_recs (s : Int) (tp : List (Nat × Str)) (n : Node)
    (hn : nodeOk n = true)
    (hsorted : List.Chain' (· < ·) (tp.map Prod.fst))
    (hge : ∀ k ∈ tp.map Prod.fst, (k : Int) ≥ s)
    (hlt : ∀ k ∈ tp.map Prod.fst, k < n.level) :
    (flattenWalk s tp n).1 = flattenRecs s (tp.map Prod.snd) n := by
  cases n with
  | mk l t cl ch =>
    rw [nodeOk] at hn
    rw [flattenWalk, flattenRecs]
    by_cases hl : (l : Int) ≥ s
    · rw [if_pos hl, if_pos hl]
      have hset : dictSet l t tp = tp ++ [(l, t)] :=
        dictSet_append (fun k' hk' => Nat.ne_of_lt (hlt k' hk'))
      have hkeys : (dictSet l t tp).map Prod.fst = tp.map Prod.fst ++ [l] := by
        rw [hset]; simp
      have hsorted' : List.Chain' (· < ·) ((dictSet l t tp).map Prod.fst) := by
        rw [hkeys]
        rw [List.chain'_append]
        refine ⟨hsorted, List.chain'_singleton l, ?_⟩
        intro x hx y hy
        simp only [List.head?_cons, Option.mem_def, Option.some.injEq] at hy
        subst hy
        exact hlt x (List.mem_of_getLast?_eq_some hx)
      have hfil : (((dictSet l t tp).map Prod.fst).filter fun (k : Nat) => (k : Int) ≥ s) =
          (dictSet l t tp).map Prod.fst := by
        rw [List.filter_eq_self]
        intro a ha
        rw [hkeys] at ha
        rcases List.mem_append.1 ha with ha | ha
        · simpa using hge a ha
        · rw [List.mem_singleton] at ha
          subst ha
          simpa using hl
      have hsort : sortAsc (((dictSet l t tp).map Prod.fst).filter
          fun (k : Nat) => (k : Int) ≥ s) = (dictSet l t tp).map Prod.fst := by
        rw [hfil]
        exact sortAsc_of_sorted (hsorted'.imp (fun a b hab => Nat.le_of_lt hab))
      have hpath : (((dictSet l t tp).map Prod.fst).map (dictGet (dictSet l t tp))) =
          tp.map Prod.snd ++ [t] := by
        rw [map_dictGet_self hsorted', hset]
        simp
      have hch : (flattenWalkChildren s (dictSet l t tp) ch).1 =
          flattenRecsChildren s (tp.map Prod.snd ++ [t]) ch := by
        have := flattenWalkChildren_eq_recs s (dictSet l t tp) l ch hn hsorted'
          (by
            intro k hk
            rw [hkeys] at hk
            rcases List.mem_append.1 hk with hk | hk
            · exact hge k hk
            · rw [List.mem_singleton] at hk
              subst hk
              exact hl)
          (by
            intro k hk c hc hpc
            rw [hkeys] at hk
            rcases List.mem_append.1 hk with hk | hk
            · exact lt_trans (hlt k hk) hpc
            · rw [List.mem_singleton] at hk
              subst hk
              exact hpc)
        rw [this, hset]
        simp
      show (((sortAsc (((dictSet l t tp).map Prod.fst).filter fun (k : Nat) => (k : Int) ≥ s)).map
          (dictGet (dictSet l t tp)),
          pyStrip (Node.content (Node.mk l t cl ch))) ::
          (flattenWalkChildren s (dictSet l t tp) ch).1) =
        ((tp.map Prod.snd ++ [t], pyStrip (Node.content (Node.mk l t cl ch))) ::
          flattenRecsChildren s (tp.map Prod.snd ++ [t]) ch)
      rw [hsort, hpath, hch]
    · rw [if_neg hl, if_neg hl]
      exact flattenWalkChildren_eq_recs s tp l ch hn hsorted hge
        (fun k hk c hc hpc => lt_trans (hlt k hk) hpc)

theorem flattenWalkChildren_eq_recs (s : Int) (tp : List (Nat × Str)) (p : Nat)
    (cs : List Node) (hf : forestOk p cs = true)
    (hsorted : List.Chain' (· < ·) (tp.map Prod.fst))
    (hge : ∀ k ∈ tp.map Prod.fst, (k : Int) ≥ s)
    (hlt : ∀ k ∈ tp.map Prod.fst, ∀ c ∈ cs, p < c.level → k < c.level) :
    (flattenWalkChildren s tp cs).1 = flattenRecsChildren s (tp.map Prod.snd) cs := by
  cases cs with
  | nil => rfl
  | cons c rest =>
    have hc := forestOk_cons.1 hf
    rw [flattenWalkChildren, flattenRecsChildren]
    have hrestore : (flattenWalk s tp c).2 = tp :=
      flattenWalk_restores s tp c hc.2.2.2.2.1 (fun k hk => hlt k hk c (by simp) hc.1)
    show (flattenWalk s tp c).1 ++ (flattenWalkChildren s (flattenWalk s tp c).2 rest).1 = _
    rw [hrestore]
    rw [flattenWalk_eq_recs s tp c hc.2.2.2.2.1 hsorted hge
      (fun k hk => hlt k hk c (by simp) hc.1)]
    rw [flattenWalkChildren_eq_recs s tp p rest hc.2.2.2.2.2 hsorted hge
      (fun k hk c2 hc2 hp2 => hlt k hk c2 (by simp [hc2]) hp2)]

end

theorem collect_flatten_eq_recs (root : Node) (s : Int) (h : nodeOk root = true) :
    collect_sections_flatten root s = flattenRecs s [] root := by
  rw [collect_sections_flatten]
  have := flattenWalk_eq_recs s [] root h (by simp) (by simp) (by simp)
  simpa using this

theorem popFrames_top_lt {lvl : Nat} {f : Frame} {rest : List Frame} (h : f.level < lvl) :
    popFrames lvl (f :: rest) = f :: rest := by
  rw [popFrames]
  cases rest with
  | nil =>
    rw [show popFramesFuel lvl ([f] : List Frame).length [f] =
      if lvl ≤ f.level then [] else [f] from rfl]
    rw [if_neg (by omega)]
  | cons g gs =>
    rw [show popFramesFuel lvl ((f :: g :: gs : List Frame)).length (f :: g :: gs) =
      if lvl ≤ f.level then
        popFramesFuel lvl (g :: gs).length (pushChild g (closeFrame f) :: gs)
      else f :: g :: gs from rfl]
    rw [if_neg (by omega)]

theorem popFramesFuel_one_bottom : ∀ (fuel : Nat) (s : List Frame), StackOk s →
    s.length ≤ fuel → ∃ b, popFramesFuel 1 fuel s = [b] ∧ b.level = 0 := by
  intro fuel
  induction fuel with
  | zero =>
    intro s hs hlen
    cases s with
    | nil => exact absurd rfl hs.1
    | cons f r => simp at hlen
  | succ fuel ih =>
    intro s hs hlen
    cases s with
    | nil => exact absurd rfl hs.1
    | cons f rest =>
      cases rest with
      | nil =>
        have hf0 : f.level = 0 := hs.2.1 f (by simp)
        refine ⟨f, ?_, hf0⟩
        rw [show popFramesFuel 1 (fuel + 1) [f] = if 1 ≤ f.level then [] else [f] from rfl]
        rw [if_neg (by omega)]
      | cons g gs =>
        have hfg : g.level < f.level := by
          have := hs.2.2.1
          rw [List.chain'_cons] at this
          exact this.1.1
        have hle : 1 ≤ f.level := by omega
        rw [show popFramesFuel 1 (fuel + 1) (f :: g :: gs) =
          if 1 ≤ f.level then popFramesFuel 1 fuel (pushChild g (closeFrame f) :: gs)
          else f :: g :: gs from rfl]
        rw [if_pos hle]
        exact ih _ (stackOk_close hs).1 (by simp at hlen ⊢; omega)

theorem popFrames_one_bottom {s : List Frame} (hs : StackOk s) :
    ∃ b, popFrames 1 s = [b] ∧ b.level = 0 := by
  rw [popFrames]
  exact popFramesFuel_one_bottom s.length s hs (le_refl _)

theorem mem_flattenRecsChildren_of_mem {s : Int} {anc : List Str} {c : Node}
    {cs : List Node} (hc : c ∈ cs) {r : List Str × Str}
    (hr : r ∈ flattenRecs s anc c) : r ∈ flattenRecsChildren s anc cs := by
  induction cs with
  | nil => simp at hc
  | cons c0 rest ih =>
    rw [flattenRecsChildren]
    rcases List.mem_cons.1 hc with hc | hc
    · subst hc
      exact List.mem_append.2 (Or.inl hr)
    · exact List.mem_append.2 (Or.inr (ih hc))

theorem flattenRecs_head_mem {s : Int} {anc : List Str} {n : Node}
    (hl : (n.level : Int) ≥ s) :
    (anc ++ [n.title], pyStrip (Node.content n)) ∈ flattenRecs s anc n := by
  cases n with
  | mk l t cl ch =>
    have hl' : (l : Int) ≥ s := hl
    rw [flattenRecs]
    rw [if_pos hl']
    exact List.mem_cons_self _ _

theorem mem_flattenRecs_of_child {s : Int} {anc : List Str} {n c : Node}
    (hc : c ∈ n.children) (hl : (n.level : Int) ≥ s) {r : List Str × Str}
    (hr : r ∈ flattenRecs s (anc ++ [n.title]) c) : r ∈ flattenRecs s anc n := by
  cases n with
  | mk l t cl ch =>
    have hl' : (l : Int) ≥ s := hl
    rw [flattenRecs, if_pos hl']
    exact List.mem_cons_of_mem _ (mem_flattenRecsChildren_of_mem hc hr)

theorem mem_flattenRecs_of_child_lt {s : Int} {anc : List Str} {n c : Node}
    (hc : c ∈ n.children) (hl : ¬ (n.level : Int) ≥ s) {r : List Str × Str}
    (hr : r ∈ flattenRecs s anc c) : r ∈ flattenRecs s anc n := by
  cases n with
  | mk l t cl ch =>
    have hl' : ¬ (l : Int) ≥ s := hl
    rw [flattenRecs, if_neg hl']
    exact mem_flattenRecsChildren_of_mem hc hr

/-! ## Claim theorem: heading-level jumps (C6) -/

/-- C6: in every document in which a heading line of level L is directly
followed by a heading line of deeper level M > L+1, the deeper heading
becomes a child (in fact the first child) of the shallower heading — not a
sibling; and (for L = 1, the H1→H4 case of the claim) the flatten extractor
at `start_level = 1` returns for the deeper heading a record whose path is
the two-element list [h1 title, h4 title]. -/
theorem level_jump_attaches_as_child (pre post : List Str) (lineL lineM : Str)
    (L M : Nat) (tL tM : Str)
    (hL : headingMatch lineL = some (L, tL)) (hM : headingMatch lineM = some (M, tM))
    (hjump : L + 1 < M) :
    (∃ nL nM : Node, ∃ suf : List Node,
      Subtree nL (parseLines (pre ++ lineL :: lineM :: post)) ∧
      nL.level = L ∧ nL.title = pyStrip tL ∧
      nL.children = nM :: suf ∧ nM.level = M ∧ nM.title = pyStrip tM) ∧
    (L = 1 → ∃ c : Str, ([pyStrip tL, pyStrip tM], c) ∈
      collect_sections_flatten (parseLines (pre ++ lineL :: lineM :: post)) 1) := by
  have hbM := headingMatch_bounds hM
  have hfold : parseLines (pre ++ lineL :: lineM :: post) =
      collapse (post.foldl mdStep
        (mdStep (mdStep (pre.foldl mdStep [rootFrame]) lineL) lineM)) := by
    rw [parseLines]
    rw [show pre ++ lineL :: lineM :: post = (pre ++ [lineL, lineM]) ++ post by simp]
    rw [List.foldl_append, List.foldl_append]
    rfl
  have hstep1 : mdStep (pre.foldl mdStep [rootFrame]) lineL =
      (⟨L, pyStrip tL, [], []⟩ : Frame) :: popFrames L (pre.foldl mdStep [rootFrame]) := by
    rw [mdStep.eq_def, hL]
  have hstep2 : ∀ R : List Frame,
      mdStep ((⟨L, pyStrip tL, [], []⟩ : Frame) :: R) lineM =
        (⟨M, pyStrip tM, [], []⟩ : Frame) :: (⟨L, pyStrip tL, [], []⟩ : Frame) :: R := by
    intro R
    rw [mdStep.eq_def, hM]
    show (⟨M, pyStrip tM, [], []⟩ : Frame) ::
        popFrames M ((⟨L, pyStrip tL, [], []⟩ : Frame) :: R) =
      (⟨M, pyStrip tM, [], []⟩ : Frame) :: (⟨L, pyStrip tL, [], []⟩ : Frame) :: R
    rw [popFrames_top_lt (show Frame.level ⟨L, pyStrip tL, [], []⟩ < M by
      show L < M
      omega)]
  have hS2inv : StackInv ((⟨M, pyStrip tM, [], []⟩ : Frame) ::
      (⟨L, pyStrip tL, [], []⟩ : Frame) :: popFrames L (pre.foldl mdStep [rootFrame])) := by
    have h1 := mdStep_inv (stackInv_run pre) lineL
    rw [hstep1] at h1
    have h2 := mdStep_inv h1 lineM
    rw [hstep2] at h2
    exact h2
  have hbottom := popFrames_one_bottom (s := pre.foldl mdStep [rootFrame])
  rw [hfold, hstep1, hstep2]
  generalize hR : popFrames L (List.foldl mdStep [rootFrame] pre) = R
  rw [hR] at hS2inv
  have hext : Ext
      (collapse ((⟨M, pyStrip tM, [], []⟩ : Frame) ::
        (⟨L, pyStrip tL, [], []⟩ : Frame) :: R))
      (collapse (post.foldl mdStep ((⟨M, pyStrip tM, [], []⟩ : Frame) ::
        (⟨L, pyStrip tL, [], []⟩ : Frame) :: R))) := ext_foldl hS2inv post
  constructor
  · have hext2 : Ext
        (collapse (pushChild ⟨L, pyStrip tL, [], []⟩
          (closeFrame ⟨M, pyStrip tM, [], []⟩) :: R))
        (collapse (post.foldl mdStep ((⟨M, pyStrip tM, [], []⟩ : Frame) ::
          (⟨L, pyStrip tL, [], []⟩ : Frame) :: R))) := hext
    obtain ⟨nL', hsub, hextL⟩ := ext_collapse_head R _ _ hext2
    have hextL2 : Ext (Node.mk L (pyStrip tL) []
        ([] ++ [closeFrame ⟨M, pyStrip tM, [], []⟩])) nL' := hextL
    obtain ⟨nM', sufM, hnL'eq, hextM⟩ := Ext_inv_concat hextL2
    have hMlt := Ext_level_title hextM
    refine ⟨nL', nM', sufM, hsub, ?_, ?_, ?_, hMlt.1, hMlt.2⟩
    · rw [hnL'eq]
      rfl
    · rw [hnL'eq]
      rfl
    · rw [hnL'eq]
      rfl
  · intro hL1
    subst hL1
    obtain ⟨b, hRb, hb0⟩ := hbottom (stackInv_run pre).1
    rw [hR] at hRb
    subst hRb
    have hfinv := stackInv_foldl hS2inv post
    have hFok : nodeOk (collapse (post.foldl mdStep ((⟨M, pyStrip tM, [], []⟩ : Frame) ::
        (⟨1, pyStrip tL, [], []⟩ : Frame) :: [b]))) = true := by
      rw [collapse]
      exact (collapseFuel_ok _ _ hfinv.1 (le_refl _)).1
    rw [collect_flatten_eq_recs _ 1 hFok]
    have hext3 : Ext
        (Node.mk b.level b.title b.content_lines
          (b.children ++ [Node.mk 1 (pyStrip tL) []
            ([] ++ [closeFrame ⟨M, pyStrip tM, [], []⟩])]))
        (collapse (post.foldl mdStep ((⟨M, pyStrip tM, [], []⟩ : Frame) ::
          (⟨1, pyStrip tL, [], []⟩ : Frame) :: [b]))) := hext
    obtain ⟨nL', suf, hFeq, hextL⟩ := Ext_inv_concat hext3
    obtain ⟨nM', sufM, hnL'eq, hextM⟩ := Ext_inv_concat hextL
    have hMlt := Ext_level_title hextM
    have htM : nM'.title = pyStrip tM := hMlt.2
    have hlevM : nM'.level = M := hMlt.1
    refine ⟨pyStrip (Node.content nM'), ?_⟩
    rw [hFeq]
    apply mem_flattenRecs_of_child_lt (show nL' ∈ (Node.mk b.level b.title b.content_lines
      (b.children ++ nL' :: suf)).children by
        show nL' ∈ b.children ++ nL' :: suf
        simp)
      (show ¬ ((Node.mk b.level b.title b.content_lines
        (b.children ++ nL' :: suf)).level : Int) ≥ 1 by
        show ¬ (b.level : Int) ≥ 1
        omega)
    rw [hnL'eq, ← htM]
    apply mem_flattenRecs_of_child
      (show nM' ∈ (Node.mk 1 (pyStrip tL) [] ([] ++ nM' :: sufM)).children by
        show nM' ∈ [] ++ nM' :: sufM
        simp)
      (show (((Node.mk 1 (pyStrip tL) [] ([] ++ nM' :: sufM)).level : Nat) : Int) ≥ 1 by
        show ((1 : Nat) : Int) ≥ 1
        omega)
    exact flattenRecs_head_mem (show ((nM'.level : Nat) : Int) ≥ 1 by
      rw [hlevM]
      omega)

/-- Witness for C6: the two-line document H1 `a` then H4 `b`. -/
theorem level_jump_attaches_as_child_witness :
    (headingMatch ('#' :: ' ' :: ['a']) = some (1, ['a']) ∧
      headingMatch ('#' :: '#' :: '#' :: '#' :: ' ' :: ['b']) = some (4, ['b']) ∧
      1 + 1 < 4) ∧
    ((∃ nL nM : Node, ∃ suf : List Node,
      Subtree nL (parseLines ([] ++ ('#' :: ' ' :: ['a']) ::
        ('#' :: '#' :: '#' :: '#' :: ' ' :: ['b']) :: [])) ∧
      nL.level = 1 ∧ nL.title = pyStrip ['a'] ∧
      nL.children = nM :: suf ∧ nM.level = 4 ∧ nM.title = pyStrip ['b']) ∧
    (1 = 1 → ∃ c : Str, ([pyStrip ['a'], pyStrip ['b']], c) ∈
      collect_sections_flatten (parseLines ([] ++ ('#' :: ' ' :: ['a']) ::
        ('#' :: '#' :: '#' :: '#' :: ' ' :: ['b']) :: [])) 1)) :=
  ⟨⟨by decide, by decide, by decide⟩,
   level_jump_attaches_as_child [] [] ('#' :: ' ' :: ['a'])
     ('#' :: '#' :: '#' :: '#' :: ' ' :: ['b']) 1 4 ['a'] ['b']
     (by decide) (by decide) (by decide)⟩

/-! ## Facts about newline splitting -/

theorem splitNl_ne_nil (s : Str) : splitNl s ≠ [] := by
  cases s with
  | nil => simp [splitNl]
  | cons c cs =>
    rw [splitNl]
    by_cases h : c = '\n'
    · rw [if_pos h]
      simp
    · rw [if_neg h]
      cases hrec : splitNl cs with
      | nil => simp
      | cons l ls => simp

theorem splitNl_cons_nl (cs : Str) : splitNl ('\n' :: cs) = [] :: splitNl cs := by
  rw [splitNl, if_pos rfl]

theorem splitNl_cons_other {c : Char} (h : ¬ c = '\n') {cs l : Str} {ls : List Str}
    (hs : splitNl cs = l :: ls) : splitNl (c :: cs) = (c :: l) :: ls := by
  rw [splitNl, if_neg h, hs]

theorem splitNl_exists_cons (cs : Str) : ∃ l ls, splitNl cs = l :: ls := by
  cases h2 : splitNl cs with
  | nil => exact absurd h2 (splitNl_ne_nil cs)
  | cons a b => exact ⟨a, b, rfl⟩

theorem splitNl_append_nl (xs ys : Str) :
    splitNl (xs ++ '\n' :: ys) = splitNl xs ++ splitNl ys := by
  induction xs with
  | nil =>
    rw [List.nil_append, splitNl_cons_nl]
    rfl
  | cons c cs ih =>
    by_cases h : c = '\n'
    · subst h
      rw [List.cons_append, splitNl_cons_nl, splitNl_cons_nl, ih]
      rfl
    · obtain ⟨l, ls, hs⟩ := splitNl_exists_cons cs
      rw [List.cons_append]
      rw [splitNl_cons_other h (show splitNl (cs ++ '\n' :: ys) = l :: (ls ++ splitNl ys) by
        rw [ih, hs]
        rfl)]
      rw [splitNl_cons_other h hs]
      rfl

theorem splitNl_of_no_nl {s : Str} (h : ¬ '\n' ∈ s) : splitNl s = [s] := by
  induction s with
  | nil => rfl
  | cons c cs ih =>
    have hc : ¬ c = '\n' := by
      intro hc
      exact h (by simp [hc])
    rw [splitNl_cons_other hc (ih (fun hm => h (by simp [hm])))]

theorem intercalate_splitNl (s : Str) : List.intercalate ['\n'] (splitNl s) = s := by
  induction s with
  | nil => rfl
  | cons c cs ih =>
    by_cases h : c = '\n'
    · subst h
      rw [splitNl_cons_nl]
      obtain ⟨l, ls, hs⟩ := splitNl_exists_cons cs
      rw [hs]
      rw [intercalate_cons₂]
      rw [← hs, ih]
      rfl
    · obtain ⟨l, ls, hs⟩ := splitNl_exists_cons cs
      rw [splitNl_cons_other h hs]
      cases ls with
      | nil =>
        rw [intercalate_single]
        have h2 := ih
        rw [hs, intercalate_single] at h2
        rw [h2]
      | cons l2 ls2 =>
        rw [intercalate_cons₂]
        have h2 := ih
        rw [hs, intercalate_cons₂] at h2
        rw [← h2]
        simp

theorem splitNl_getLast {s : Str} {c : Char} (hlast : s.getLast? = some c) (hc : ¬ c = '\n') :
    ∃ piece, (splitNl s).getLast? = some piece ∧ piece.getLast? = some c := by
  induction s with
  | nil => simp at hlast
  | cons a cs ih =>
    cases cs with
    | nil =>
      simp at hlast
      subst hlast
      refine ⟨[a], ?_, by simp⟩
      rw [splitNl_cons_other hc (show splitNl [] = [] :: [] from rfl)]
      rfl
    | cons b cs2 =>
      rw [getLast?_cons_ne a (by simp)] at hlast
      obtain ⟨piece, hp, hpl⟩ := ih hlast
      by_cases ha : a = '\n'
      · subst ha
        rw [splitNl_cons_nl]
        exact ⟨piece, by rw [getLast?_cons_ne _ (splitNl_ne_nil (b :: cs2))]; exact hp, hpl⟩
      · obtain ⟨l, ls, hs⟩ := splitNl_exists_cons (b :: cs2)
        rw [splitNl_cons_other ha hs]
        cases ls with
        | nil =>
          rw [hs] at hp
          simp at hp
          subst hp
          have hlne : l ≠ [] := by
            intro hcontra
            rw [hcontra] at hpl
            simp at hpl
          exact ⟨a :: l, by simp, by rw [getLast?_cons_ne a hlne]; exact hpl⟩
        | cons l2 ls2 =>
          refine ⟨piece, ?_, hpl⟩
          rw [hs] at hp
          rw [List.getLast?_cons_cons] at hp ⊢
          exact hp

theorem pyStrip_eq_nil_iff {s : Str} : pyStrip s = [] ↔ ∀ c ∈ s, wsChar c = true := by
  constructor
  · intro h c hc
    rw [pyStrip_eq] at h
    rw [List.reverse_eq_nil_iff] at h
    rw [List.dropWhile_eq_nil_iff] at h
    have hd : ∀ x ∈ s.dropWhile wsChar, wsChar x = true := by
      intro x hx
      have := h x (by simpa using hx)
      exact this
    rw [← List.takeWhile_append_dropWhile (p := wsChar) (l := s)] at hc
    rcases List.mem_append.1 hc with hc | hc
    · exact List.mem_takeWhile_imp hc
    · exact hd c hc
  · intro h
    rw [pyStrip_eq]
    rw [List.dropWhile_eq_nil_iff.2 h]
    rfl

theorem contentOf_append_blank {cl : List Str} {b : Str} (hb : pyStrip b = []) :
    contentOf (cl ++ [b]) = contentOf cl := by
  rw [contentOf, contentOf, dropTrailingBlanks_append_blanks (by
    intro x hx
    rw [List.mem_singleton] at hx
    subst hx
    exact hb)]

theorem contentOf_splitNl {x : Str} (hs : pyStrip x = x) (hne : x ≠ []) :
    contentOf (splitNl x) = x := by
  obtain ⟨c, hx⟩ : ∃ c, x.getLast? = some c := by
    cases hx : x.getLast? with
    | none => exact absurd (List.getLast?_eq_none_iff.1 hx) hne
    | some c => exact ⟨c, rfl⟩
  have hcw : wsChar c = false := getLast?_of_stripped hs c hx
  have hcnl : ¬ c = '\n' := by
    intro h
    subst h
    simp [wsChar] at hcw
  obtain ⟨piece, hp, hpl⟩ := splitNl_getLast hx hcnl
  rw [contentOf]
  rw [dropTrailingBlanks_eq_self (by
    intro b hb
    rw [hp] at hb
    simp at hb
    subst hb
    intro hcontra
    have hall := pyStrip_eq_nil_iff.1 hcontra
    have hcb := List.mem_of_getLast?_eq_some hpl
    rw [hall c hcb] at hcw
    simp at hcw)]
  exact intercalate_splitNl x

theorem pySplitlines_of_stripped {x : Str} (hs : pyStrip x = x) (hne : x ≠ []) :
    pySplitlines x = splitNl x := by
  obtain ⟨c, hx⟩ : ∃ c, x.getLast? = some c := by
    cases hx : x.getLast? with
    | none => exact absurd (List.getLast?_eq_none_iff.1 hx) hne
    | some c => exact ⟨c, rfl⟩
  have hcw : wsChar c = false := getLast?_of_stripped hs c hx
  have hcnl : ¬ c = '\n' := by
    intro h
    subst h
    simp [wsChar] at hcw
  obtain ⟨piece, hp, hpl⟩ := splitNl_getLast hx hcnl
  rw [pySplitlines]
  rw [if_neg (by
    rw [hp]
    simp only [Option.some.injEq]
    intro hcontra
    rw [hcontra] at hpl
    simp at hpl)]

/-! ## Small step lemmas for the reparse simulation -/

theorem headingMatch_nil : headingMatch [] = none := by decide

theorem mdStep_content {line : Str} (h : headingMatch line = none) (f : Frame)
    (rest : List Frame) :
    mdStep (f :: rest) line =
      ({ f with content_lines := f.content_lines ++ [line] } : Frame) :: rest := by
  rw [mdStep.eq_def, h]

theorem mdStep_pad {line : Str} (h : headingMatch line = none) {os : List Frame}
    (hos : os ≠ []) (s' : List Frame) :
    mdStep (os ++ s') line = padTop os line ++ s' := by
  cases os with
  | nil => exact absurd rfl hos
  | cons f r =>
    rw [List.cons_append, mdStep_content h]
    rfl

theorem padTop_append {s : List Frame} (hs : s ≠ []) (tl : List Frame) (b : Str) :
    padTop (s ++ tl) b = padTop s b ++ tl := by
  cases s with
  | nil => exact absurd rfl hs
  | cons f r => rfl

theorem foldl_mdStep_content {L : List Str} (hL : ∀ line ∈ L, headingMatch line = none)
    (f : Frame) (rest : List Frame) :
    List.foldl mdStep (f :: rest) L =
      ({ f with content_lines := f.content_lines ++ L } : Frame) :: rest := by
  induction L generalizing f with
  | nil => simp
  | cons a L' ih =>
    rw [List.foldl_cons, mdStep_content (hL a (by simp))]
    rw [ih (fun line hl => hL line (by simp [hl]))]
    simp

theorem popFramesFuel_cons_pop {L : Nat} {f : Frame} (h : L ≤ f.level) (fuel : Nat)
    (g : Frame) (gs : List Frame) :
    popFramesFuel L (fuel + 1) (f :: g :: gs) =
      popFramesFuel L fuel (pushChild g (closeFrame f) :: gs) := by
  have e : popFramesFuel L (fuel + 1) (f :: g :: gs) =
      if L ≤ f.level then popFramesFuel L fuel (pushChild g (closeFrame f) :: gs)
      else f :: g :: gs := rfl
  rw [e, if_pos h]

theorem popFramesFuel_stop {L : Nat} {f : Frame} (h : ¬ L ≤ f.level) (fuel : Nat)
    (rest : List Frame) :
    popFramesFuel L (fuel + 1) (f :: rest) = f :: rest := by
  have e : popFramesFuel L (fuel + 1) (f :: rest) =
      if L ≤ f.level then
        (match rest with
         | [] => []
         | g :: gs => popFramesFuel L fuel (pushChild g (closeFrame f) :: gs))
      else f :: rest := rfl
  rw [e, if_neg h]

theorem collapseFuel_cons_cons (fuel : Nat) (f g : Frame) (rest : List Frame) :
    collapseFuel (fuel + 1) (f :: g :: rest) =
      collapseFuel fuel (pushChild g (closeFrame f) :: rest) := rfl

/-! ## Basic facts about the mirror relation -/

theorem mirF_nil_nil : mirF [] [] = true := rfl

theorem mirF_nil_cons (r : Node) (rs : List Node) : mirF [] (r :: rs) = false := rfl

theorem mirF_cons_nil (c : Node) (cs : List Node) : mirF (c :: cs) [] = false := rfl

theorem mirF_cons_cons (c r : Node) (cs rs : List Node) :
    mirF (c :: cs) (r :: rs) = (mirN c r && mirF cs rs) := rfl

theorem mirN_mk (l l' : Nat) (t t' : Str) (cl cl' : List Str) (ch ch' : List Node) :
    mirN (Node.mk l t cl ch) (Node.mk l' t' cl' ch') =
      ((l == l') && (t == t') && (contentOf cl' == pyStrip (contentOf cl)) &&
        mirF ch ch') := rfl

theorem mirF_append_singleton {ks rs : List Node} {k r : Node} (h1 : mirF ks rs = true)
    (h2 : mirN k r = true) : mirF (ks ++ [k]) (rs ++ [r]) = true := by
  induction ks generalizing rs with
  | nil =>
    cases rs with
    | nil =>
      rw [List.nil_append, List.nil_append, mirF_cons_cons, h2, mirF_nil_nil]
      rfl
    | cons b rs2 =>
      rw [mirF_nil_cons] at h1
      exact absurd h1 (by simp)
  | cons a ks' ih =>
    cases rs with
    | nil =>
      rw [mirF_cons_nil] at h1
      exact absurd h1 (by simp)
    | cons b rs2 =>
      rw [mirF_cons_cons] at h1
      rw [Bool.and_eq_true] at h1
      rw [List.cons_append, List.cons_append, mirF_cons_cons, h1.1, ih h1.2]
      rfl

/-! ## Facts about the well-formedness and side-condition predicates -/

theorem forestOk_mono {p q : Nat} {cs : List Node} (h : forestOk p cs = true)
    (hq : q ≤ p) : forestOk q cs = true := by
  induction cs with
  | nil => rfl
  | cons c rest ih =>
    have hc := forestOk_cons.1 h
    exact forestOk_cons.2 ⟨lt_of_le_of_lt hq hc.1, hc.2.1, hc.2.2.1, hc.2.2.2.1,
      hc.2.2.2.2.1, ih hc.2.2.2.2.2⟩

theorem forestOk_mem {p : Nat} {cs : List Node} (h : forestOk p cs = true) {c : Node}
    (hc : c ∈ cs) :
    p < c.level ∧ c.level ≤ 6 ∧ pyStrip c.title = c.title ∧ nodeOk c = true := by
  induction cs with
  | nil => simp at hc
  | cons d rest ih =>
    have hd := forestOk_cons.1 h
    rcases List.mem_cons.1 hc with hc | hc
    · subst hc
      exact ⟨hd.1, hd.2.1, hd.2.2.1, hd.2.2.2.2.1⟩
    · exact ih hd.2.2.2.2.2 hc

theorem userForest_cons {c : Node} {rest : List Node} :
    userForest (c :: rest) = true ↔
      c.title ≠ [] ∧ ¬ '\n' ∈ c.title ∧ userOK c = true ∧ userForest rest = true := by
  have e : userForest (c :: rest) =
      ((c.title != []) && (!(c.title.contains '\n')) && userOK c && userForest rest) := rfl
  rw [e]
  simp [List.contains, and_assoc]

theorem userForest_mem {cs : List Node} (h : userForest cs = true) {c : Node}
    (hc : c ∈ cs) : c.title ≠ [] ∧ ¬ '\n' ∈ c.title ∧ userOK c = true := by
  induction cs with
  | nil => simp at hc
  | cons d rest ih =>
    have hd := userForest_cons.1 h
    rcases List.mem_cons.1 hc with hc | hc
    · subst hc
      exact ⟨hd.1, hd.2.1, hd.2.2.1⟩
    · exact ih hd.2.2.2 hc

theorem userOK_mk {l : Nat} {t : Str} {cl : List Str} {ch : List Node} :
    userOK (Node.mk l t cl ch) = true ↔
      (∀ line ∈ splitNl (pyStrip (contentOf cl)), headingMatch line = none) ∧
      userForest ch = true := by
  have e : userOK (Node.mk l t cl ch) =
      (((splitNl (pyStrip (contentOf cl))).all fun line => (headingMatch line).isNone) &&
        userForest ch) := rfl
  rw [e]
  rw [Bool.and_eq_true, List.all_eq_true]
  constructor
  · intro h
    exact ⟨fun line hl => Option.isNone_iff_eq_none.1 (h.1 line hl), h.2⟩
  · intro h
    exact ⟨fun line hl => Option.isNone_iff_eq_none.2 (h.1 line hl), h.2⟩

/-! ## Elementary membership and nonemptiness facts for serializations -/

theorem mem_intercalate_head {a : Char} {x : Str} (ha : a ∈ x) (sep : Str)
    (rest : List Str) : a ∈ List.intercalate sep (x :: rest) := by
  cases rest with
  | nil => rw [intercalate_single]; exact ha
  | cons b t2 =>
    rw [intercalate_cons₂]
    exact List.mem_append.2 (Or.inl (List.mem_append.2 (Or.inl ha)))

theorem pyStrip_ne_nil_of_mem {s : Str} {a : Char} (ha : a ∈ s)
    (hw : wsChar a = false) : pyStrip s ≠ [] := by
  intro h
  have := pyStrip_eq_nil_iff.1 h a ha
  rw [hw] at this
  exact absurd this (by simp)

theorem splitNl_intercalate_sep (p : Str) (ps : List Str) :
    splitNl (List.intercalate ('\n' :: '\n' :: []) (p :: ps)) =
      splitNl p ++ ps.flatMap fun q => [] :: splitNl q := by
  induction ps generalizing p with
  | nil =>
    rw [intercalate_single]
    simp
  | cons q ps' ih =>
    rw [intercalate_cons₂]
    have e : p ++ ('\n' :: '\n' :: []) ++ List.intercalate ('\n' :: '\n' :: []) (q :: ps') =
        p ++ '\n' :: ('\n' :: List.intercalate ('\n' :: '\n' :: []) (q :: ps')) := by
      simp
    rw [e, splitNl_append_nl, splitNl_cons_nl, ih]
    simp

/-! ## The open-spine invariant of the reparse -/

theorem OpenS_ne_nil {n : Node} {os : List Frame} (h : OpenS n os) : os ≠ [] := by
  cases h with
  | leaf l t cl cl' hcl => simp
  | node l t cl cl' ks k rs os2 hcl hmir hlk hk => simp

theorem OpenS_pad {n : Node} {os : List Frame} (h : OpenS n os) {b : Str}
    (hb : pyStrip b = []) : OpenS n (padTop os b) := by
  induction h with
  | leaf l t cl cl' hcl =>
    show OpenS _ [⟨l, t, cl' ++ [b], []⟩]
    exact OpenS.leaf l t cl (cl' ++ [b]) (by rw [contentOf_append_blank hb, hcl])
  | node l t cl cl' ks k rs os2 hcl hmir hlk hk ih =>
    rw [padTop_append (OpenS_ne_nil hk)]
    exact OpenS.node l t cl cl' ks k rs _ hcl hmir hlk ih

theorem openS_pop_core {n : Node} {os : List Frame} (h : OpenS n os) :
    ∀ {L : Nat}, L ≤ n.level → ∀ (g : Frame) (rest : List Frame) (fuel : Nat),
    os.length ≤ fuel →
    ∃ r, mirN n r = true ∧
      popFramesFuel L fuel (os ++ g :: rest) =
        popFramesFuel L (fuel - os.length) (pushChild g r :: rest) := by
  induction h with
  | leaf l t cl cl' hcl =>
    intro L hL g rest fuel hfuel
    obtain ⟨fl, rfl⟩ : ∃ fl, fuel = fl + 1 := ⟨fuel - 1, by simp at hfuel; omega⟩
    refine ⟨Node.mk l t cl' [], ?_, ?_⟩
    · rw [mirN_mk, hcl]
      simp [mirF_nil_nil]
    · rw [List.cons_append, List.nil_append]
      rw [popFramesFuel_cons_pop hL fl]
      rfl
  | node l t cl cl' ks k rs os2 hcl hmir hlk hk ih =>
    intro L hL g rest fuel hfuel
    have hLk : L ≤ k.level := le_of_lt (lt_of_le_of_lt hL hlk)
    simp only [List.length_append, List.length_cons, List.length_nil] at hfuel
    obtain ⟨r1, hm1, he1⟩ := ih hLk ⟨l, t, cl', rs⟩ (g :: rest) fuel (by omega)
    obtain ⟨fl, hfl⟩ : ∃ fl, fuel - os2.length = fl + 1 := ⟨fuel - os2.length - 1, by omega⟩
    refine ⟨Node.mk l t cl' (rs ++ [r1]), ?_, ?_⟩
    · rw [mirN_mk, hcl]
      simp [mirF_append_singleton hmir hm1]
    · rw [List.append_assoc]
      have e2 : ([⟨l, t, cl', rs⟩] : List Frame) ++ g :: rest =
          (⟨l, t, cl', rs⟩ : Frame) :: g :: rest := rfl
      rw [e2, he1, hfl]
      rw [popFramesFuel_cons_pop hL fl]
      have e3 : (os2 ++ [(⟨l, t, cl', rs⟩ : Frame)]).length = os2.length + 1 := by simp
      rw [e3]
      have e4 : fuel - (os2.length + 1) = fl := by omega
      rw [e4]
      rfl

theorem popFrames_openS {n : Node} {os : List Frame} (h : OpenS n os) {L : Nat}
    (hL : L ≤ n.level) (g : Frame) (hg : g.level < L) (rest : List Frame) :
    ∃ r, mirN n r = true ∧ popFrames L (os ++ g :: rest) = pushChild g r :: rest := by
  obtain ⟨r, hm, he⟩ := openS_pop_core h hL g rest (os ++ g :: rest).length (by simp)
  refine ⟨r, hm, ?_⟩
  rw [popFrames, he]
  have hlen : (os ++ g :: rest).length - os.length = rest.length + 1 := by simp
  rw [hlen]
  exact popFramesFuel_stop (by simp [pushChild]; omega) rest.length rest

theorem openS_collapse_core {n : Node} {os : List Frame} (h : OpenS n os) :
    ∀ (g : Frame) (rest : List Frame) (fuel : Nat), os.length ≤ fuel →
    ∃ r, mirN n r = true ∧
      collapseFuel fuel (os ++ g :: rest) =
        collapseFuel (fuel - os.length) (pushChild g r :: rest) := by
  induction h with
  | leaf l t cl cl' hcl =>
    intro g rest fuel hfuel
    obtain ⟨fl, rfl⟩ : ∃ fl, fuel = fl + 1 := ⟨fuel - 1, by simp at hfuel; omega⟩
    refine ⟨Node.mk l t cl' [], ?_, ?_⟩
    · rw [mirN_mk, hcl]
      simp [mirF_nil_nil]
    · rw [List.cons_append, List.nil_append]
      rw [collapseFuel_cons_cons]
      rfl
  | node l t cl cl' ks k rs os2 hcl hmir hlk hk ih =>
    intro g rest fuel hfuel
    simp only [List.length_append, List.length_cons, List.length_nil] at hfuel
    obtain ⟨r1, hm1, he1⟩ := ih ⟨l, t, cl', rs⟩ (g :: rest) fuel (by omega)
    obtain ⟨fl, hfl⟩ : ∃ fl, fuel - os2.length = fl + 1 := ⟨fuel - os2.length - 1, by omega⟩
    refine ⟨Node.mk l t cl' (rs ++ [r1]), ?_, ?_⟩
    · rw [mirN_mk, hcl]
      simp [mirF_append_singleton hmir hm1]
    · rw [List.append_assoc]
      have e2 : ([⟨l, t, cl', rs⟩] : List Frame) ++ g :: rest =
          (⟨l, t, cl', rs⟩ : Frame) :: g :: rest := rfl
      rw [e2, he1, hfl]
      rw [collapseFuel_cons_cons]
      have e3 : (os2 ++ [(⟨l, t, cl', rs⟩ : Frame)]).length = os2.length + 1 := by simp
      rw [e3]
      have e4 : fuel - (os2.length + 1) = fl := by omega
      rw [e4]
      rfl

theorem collapse_openS {n : Node} {os : List Frame} (h : OpenS n os) (g : Frame) :
    ∃ r, mirN n r = true ∧ collapse (os ++ [g]) = closeFrame (pushChild g r) := by
  obtain ⟨r, hm, he⟩ := openS_collapse_core h g [] (os ++ [g]).length (by simp)
  refine ⟨r, hm, ?_⟩
  rw [collapse, he]
  have hlen : (os ++ [g]).length - os.length = 1 := by simp
  rw [hlen]
  rfl

/-! ## Line structure of the serialized section text -/

theorem childBlocks_cons (c : Node) (rest : List Node) :
    childBlocks (c :: rest) =
      pyStrip (List.intercalate ['\n']
        (if _section_content_with_children c = [] then
          [List.replicate c.level '#' ++ ' ' :: c.title]
         else [List.replicate c.level '#' ++ ' ' :: c.title,
               _section_content_with_children c]))
      :: childBlocks rest := rfl

theorem childBlocks_ne_nil {cs : List Node}
    (hf : ∀ c ∈ cs, c.title ≠ [] ∧ pyStrip c.title = c.title) :
    ∀ b ∈ childBlocks cs, b ≠ [] := by
  induction cs with
  | nil =>
    intro b hb
    rw [show childBlocks [] = [] from rfl] at hb
    simp at hb
  | cons c rest ih =>
    intro b hb
    rw [childBlocks_cons] at hb
    rcases List.mem_cons.1 hb with hb | hb
    · subst hb
      obtain ⟨ht, hts⟩ := hf c (by simp)
      obtain ⟨a, ha⟩ : ∃ a, c.title.head? = some a := by
        cases hT : c.title with
        | nil => exact absurd hT ht
        | cons x xs => exact ⟨x, rfl⟩
      have haw : wsChar a = false := head?_of_stripped hts a ha
      have hat : a ∈ c.title := by
        cases hT : c.title with
        | nil => rw [hT] at ha; simp at ha
        | cons x xs =>
          rw [hT] at ha
          simp at ha
          subst ha
          exact List.mem_cons_self x xs
      have hhead : a ∈ List.replicate c.level '#' ++ ' ' :: c.title :=
        List.mem_append.2 (Or.inr (List.mem_cons.2 (Or.inr hat)))
      by_cases hser : _section_content_with_children c = []
      · rw [if_pos hser]
        exact pyStrip_ne_nil_of_mem (mem_intercalate_head hhead _ _) haw
      · rw [if_neg hser]
        exact pyStrip_ne_nil_of_mem (mem_intercalate_head hhead _ _) haw
    · exact ih (fun d hd => hf d (by simp [hd])) b hb

theorem serial_eq {l : Nat} {t : Str} {cl : List Str} {ch : List Node}
    (hch : ∀ c ∈ ch, c.title ≠ [] ∧ pyStrip c.title = c.title) :
    _section_content_with_children (Node.mk l t cl ch) =
      List.intercalate ('\n' :: '\n' :: [])
        ((if pyStrip (contentOf cl) = [] then [] else [pyStrip (contentOf cl)]) ++
          childBlocks ch) := by
  have e : _section_content_with_children (Node.mk l t cl ch) =
      List.intercalate ('\n' :: '\n' :: [])
        ((((if pyStrip (contentOf cl) = [] then [] else [pyStrip (contentOf cl)]) ++
          childBlocks ch).filter fun p => p != [])) := rfl
  rw [e]
  congr 1
  apply List.filter_eq_self.2
  intro p hp
  rcases List.mem_append.1 hp with hp | hp
  · by_cases hown : pyStrip (contentOf cl) = []
    · rw [if_pos hown] at hp
      simp at hp
    · rw [if_neg hown] at hp
      simp at hp
      subst hp
      simpa using hown
  · have h2 := childBlocks_ne_nil hch p hp
    simpa using h2

theorem serial_nil {l : Nat} {t : Str} {cl : List Str} {ch : List Node}
    (hch : ∀ c ∈ ch, c.title ≠ [] ∧ pyStrip c.title = c.title)
    (h : _section_content_with_children (Node.mk l t cl ch) = []) :
    pyStrip (contentOf cl) = [] ∧ ch = [] := by
  rw [serial_eq hch] at h
  cases hP : (if pyStrip (contentOf cl) = [] then [] else [pyStrip (contentOf cl)]) ++
      childBlocks ch with
  | nil =>
    simp only [List.append_eq_nil] at hP
    constructor
    · by_cases hown : pyStrip (contentOf cl) = []
      · exact hown
      · rw [if_neg hown] at hP
        exact absurd hP.1 (by simp)
    · cases hc : ch with
      | nil => rfl
      | cons d rest =>
        rw [hc, childBlocks_cons] at hP
        exact absurd hP.2 (by simp)
  | cons a rest =>
    rw [hP] at h
    have hane : a ≠ [] := by
      have hmem : a ∈ (if pyStrip (contentOf cl) = [] then []
          else [pyStrip (contentOf cl)]) ++ childBlocks ch := by
        rw [hP]
        simp
      rcases List.mem_append.1 hmem with hm | hm
      · by_cases hown : pyStrip (contentOf cl) = []
        · rw [if_pos hown] at hm
          simp at hm
        · rw [if_neg hown] at hm
          simp at hm
          subst hm
          exact hown
      · exact childBlocks_ne_nil hch a hm
    exact absurd h (intercalate_ne_nil_of_head hane)

theorem splitNl_childBlock {c : Node} (hl1 : 1 ≤ c.level) (ht : c.title ≠ [])
    (hts : pyStrip c.title = c.title) (htn : ¬ '\n' ∈ c.title) :
    splitNl (pyStrip (List.intercalate ['\n']
      (if _section_content_with_children c = [] then
        [List.replicate c.level '#' ++ ' ' :: c.title]
       else [List.replicate c.level '#' ++ ' ' :: c.title,
             _section_content_with_children c]))) = blockLines c := by
  have hnlh : ¬ '\n' ∈ (List.replicate c.level '#' ++ ' ' :: c.title) := by
    intro hm
    rcases List.mem_append.1 hm with hm | hm
    · have h2 := List.eq_of_mem_replicate hm
      exact absurd h2 (by decide)
    · rcases List.mem_cons.1 hm with hm | hm
      · exact absurd hm (by decide)
      · exact htn hm
  have hheadne : (List.replicate c.level '#' ++ ' ' :: c.title) ≠ [] := by simp
  have hhead? : ∀ a ∈ (List.replicate c.level '#' ++ ' ' :: c.title).head?,
      wsChar a = false := by
    intro a ha
    obtain ⟨k, hk⟩ : ∃ k, c.level = k + 1 := ⟨c.level - 1, by omega⟩
    rw [hk, List.replicate_succ] at ha
    simp at ha
    subst ha
    decide
  have hlast? : ((List.replicate c.level '#' ++ ' ' :: c.title)).getLast? =
      c.title.getLast? := by
    rw [List.getLast?_append_of_ne_nil _ (by simp)]
    exact getLast?_cons_ne ' ' ht
  by_cases hser : _section_content_with_children c = []
  · rw [if_pos hser, intercalate_single]
    rw [pyStrip_eq_self hhead? (by
      rw [hlast?]
      exact fun a ha => getLast?_of_stripped hts a ha)]
    rw [splitNl_of_no_nl hnlh]
    rw [blockLines, if_pos hser]
  · rw [if_neg hser]
    rw [intercalate_cons₂, intercalate_single]
    have e : List.replicate c.level '#' ++ ' ' :: c.title ++ ['\n'] ++
        _section_content_with_children c =
        (List.replicate c.level '#' ++ ' ' :: c.title) ++
          '\n' :: _section_content_with_children c := by
      simp
    rw [e]
    have hhead2 : ∀ a ∈ ((List.replicate c.level '#' ++ ' ' :: c.title) ++
        '\n' :: _section_content_with_children c).head?, wsChar a = false := by
      intro a ha
      cases hH : List.replicate c.level '#' ++ ' ' :: c.title with
      | nil => exact absurd hH hheadne
      | cons x xs =>
        rw [hH, List.cons_append] at ha
        simp at ha
        subst ha
        exact hhead? x (by rw [hH]; rfl)
    have hlast2 : ∀ a ∈ ((List.replicate c.level '#' ++ ' ' :: c.title) ++
        '\n' :: _section_content_with_children c).getLast?, wsChar a = false := by
      intro a ha
      rw [List.getLast?_append_of_ne_nil _ (by simp)] at ha
      rw [getLast?_cons_ne '\n' hser] at ha
      exact getLast?_of_stripped (section_content_stripped c) a ha
    rw [pyStrip_eq_self hhead2 hlast2]
    rw [splitNl_append_nl]
    rw [splitNl_of_no_nl hnlh]
    rw [blockLines, if_neg hser]
    rfl

theorem childBlocks_flatMap {l : Nat} {cs : List Node} (hf : forestOk l cs = true)
    (hu : userForest cs = true) :
    (childBlocks cs).flatMap (fun b => [] :: splitNl b) =
      cs.flatMap fun c => [] :: blockLines c := by
  induction cs with
  | nil => rfl
  | cons c rest ih =>
    have hfc := forestOk_cons.1 hf
    have huc := userForest_cons.1 hu
    have h1 : l < c.level := hfc.1
    rw [childBlocks_cons, List.flatMap_cons, List.flatMap_cons]
    rw [splitNl_childBlock (by omega) huc.1 hfc.2.2.1 huc.2.1]
    rw [ih hfc.2.2.2.2.2 huc.2.2.2]

/-! ## Frame-literal forms of the content-line steps -/

theorem mdStep_content_mk {line : Str} (h : headingMatch line = none) (l : Nat) (t : Str)
    (cl0 : List Str) (ch0 : List Node) (rest : List Frame) :
    mdStep ((⟨l, t, cl0, ch0⟩ : Frame) :: rest) line =
      (⟨l, t, cl0 ++ [line], ch0⟩ : Frame) :: rest :=
  mdStep_content h _ rest

theorem foldl_mdStep_content_mk {L : List Str} (hL : ∀ line ∈ L, headingMatch line = none)
    (l : Nat) (t : Str) (cl0 : List Str) (ch0 : List Node) (rest : List Frame) :
    List.foldl mdStep ((⟨l, t, cl0, ch0⟩ : Frame) :: rest) L =
      (⟨l, t, cl0 ++ L, ch0⟩ : Frame) :: rest :=
  foldl_mdStep_content hL _ rest

/-! ## The reparse simulation: reading back a serialized section rebuilds a
mirror of the original subtree on the parse stack -/

theorem pyStrip_nil : pyStrip ([] : Str) = [] := rfl

theorem contentOf_nil : contentOf ([] : List Str) = [] := rfl

theorem sim_all (N : Nat) :
    (∀ c : Node, sizeOf c ≤ N → SerialSim c) ∧
    (∀ c : Node, sizeOf c ≤ N → BlockSim c) ∧
    (∀ cs : List Node, sizeOf cs ≤ N → ChildrenSim cs) := by
  induction N with
  | zero =>
    refine ⟨?_, ?_, ?_⟩
    · intro c hsize
      cases c with
      | mk l t cl ch =>
        have hs := Node.mk.sizeOf_spec l t cl ch
        exact absurd hsize (by omega)
    · intro c hsize
      cases c with
      | mk l t cl ch =>
        have hs := Node.mk.sizeOf_spec l t cl ch
        exact absurd hsize (by omega)
    · intro cs hsize
      cases cs with
      | nil =>
        have hs : sizeOf ([] : List Node) = 1 := rfl
        exact absurd hsize (by omega)
      | cons c cs' =>
        have hs := List.cons.sizeOf_spec c cs'
        exact absurd hsize (by omega)
  | succ N ihN =>
    obtain ⟨ihS, ihB, ihC⟩ := ihN
    have serialN : ∀ c : Node, sizeOf c ≤ N + 1 → SerialSim c := by
      intro c hsize
      intro hok hu hne below
      cases c with
      | mk l t cl ch =>
        show ∃ os, OpenS (Node.mk l t cl ch) os ∧
          List.foldl mdStep ((⟨l, t, [], []⟩ : Frame) :: below)
            (splitNl (_section_content_with_children (Node.mk l t cl ch))) = os ++ below
        have hfOk : forestOk l ch = true := hok
        have huOk := userOK_mk.1 hu
        have hch : ∀ d ∈ ch, d.title ≠ [] ∧ pyStrip d.title = d.title := fun d hd =>
          ⟨(userForest_mem huOk.2 hd).1, (forestOk_mem hfOk hd).2.2.1⟩
        rw [serial_eq hch] at hne ⊢
        cases ch with
        | nil =>
          rw [show childBlocks ([] : List Node) = [] from rfl, List.append_nil] at hne ⊢
          by_cases hown : pyStrip (contentOf cl) = []
          · rw [if_pos hown, intercalate_nil] at hne
            exact absurd rfl hne
          · rw [if_neg hown, intercalate_single]
            refine ⟨[⟨l, t, splitNl (pyStrip (contentOf cl)), []⟩], ?_, ?_⟩
            · exact OpenS.leaf l t cl _ (contentOf_splitNl (pyStrip_idem _) hown)
            · rw [foldl_mdStep_content_mk huOk.1]
              simp
        | cons c1 ch' =>
          have hsN := Node.mk.sizeOf_spec l t cl (c1 :: ch')
          have hsC := List.cons.sizeOf_spec c1 ch'
          rw [hsC] at hsN
          have hb1 : sizeOf c1 ≤ N := by omega
          have hbch : sizeOf ch' ≤ N := by omega
          have hf1 := forestOk_cons.1 hfOk
          have hu1 := userForest_cons.1 huOk.2
          have hl1 : l < c1.level := hf1.1
          by_cases hown : pyStrip (contentOf cl) = []
          · rw [if_pos hown, List.nil_append, childBlocks_cons, splitNl_intercalate_sep,
              splitNl_childBlock (by omega) hu1.1 hf1.2.2.1 hu1.2.1,
              childBlocks_flatMap hf1.2.2.2.2.2 hu1.2.2.2, List.foldl_append]
            have hpop1 : popFrames c1.level ((⟨l, t, [], []⟩ : Frame) :: below) =
                (⟨l, t, [], []⟩ : Frame) :: below := popFrames_top_lt hl1
            obtain ⟨os1, hO1, he1⟩ := ihB c1 hb1 hf1.2.2.2.2.1 hu1.2.2.1 (by omega)
              hf1.2.1 hu1.1 hf1.2.2.1 hu1.2.1 _ _ hpop1
            rw [he1]
            obtain ⟨front, q, osq, rsnew, hfront, hql, hOq, hmirf, heq⟩ :=
              ihC ch' hbch l t hf1.2.2.2.2.2 hu1.2.2.2 c1 hf1.2.2.2.1 hl1 os1 hO1
                [] [] below
            simp only [List.nil_append] at heq
            rw [heq]
            refine ⟨osq ++ [⟨l, t, [], rsnew⟩], ?_, by simp⟩
            rw [show (c1 :: ch') = front ++ [q] from hfront]
            exact OpenS.node l t cl [] front q rsnew osq (by rw [hown, contentOf_nil])
              hmirf hql hOq
          · rw [if_neg hown, List.singleton_append, splitNl_intercalate_sep,
              childBlocks_flatMap hfOk huOk.2, List.foldl_append,
              foldl_mdStep_content_mk huOk.1]
            simp only [List.nil_append]
            rw [List.flatMap_cons, List.foldl_append, List.foldl_cons,
              mdStep_content_mk headingMatch_nil]
            have hpop1 : popFrames c1.level
                ((⟨l, t, splitNl (pyStrip (contentOf cl)) ++ [[]], []⟩ : Frame) :: below) =
                (⟨l, t, splitNl (pyStrip (contentOf cl)) ++ [[]], []⟩ : Frame) :: below :=
              popFrames_top_lt hl1
            obtain ⟨os1, hO1, he1⟩ := ihB c1 hb1 hf1.2.2.2.2.1 hu1.2.2.1 (by omega)
              hf1.2.1 hu1.1 hf1.2.2.1 hu1.2.1 _ _ hpop1
            rw [he1]
            obtain ⟨front, q, osq, rsnew, hfront, hql, hOq, hmirf, heq⟩ :=
              ihC ch' hbch l t hf1.2.2.2.2.2 hu1.2.2.2 c1 hf1.2.2.2.1 hl1 os1 hO1
                (splitNl (pyStrip (contentOf cl)) ++ [[]]) [] below
            simp only [List.nil_append] at heq
            rw [heq]
            refine ⟨osq ++ [⟨l, t, splitNl (pyStrip (contentOf cl)) ++ [[]], rsnew⟩],
              ?_, by simp⟩
            rw [show (c1 :: ch') = front ++ [q] from hfront]
            have hcl2 : contentOf (splitNl (pyStrip (contentOf cl)) ++ [[]]) =
                pyStrip (contentOf cl) := by
              rw [contentOf_append_blank pyStrip_nil]
              exact contentOf_splitNl (pyStrip_idem _) hown
            exact OpenS.node l t cl (splitNl (pyStrip (contentOf cl)) ++ [[]]) front q
              rsnew osq hcl2 hmirf hql hOq
    have blockN : ∀ c : Node, sizeOf c ≤ N + 1 → BlockSim c := by
      intro c hsize
      intro hok hu hl1 hl6 ht hts htn s s' hpop
      have hm : headingMatch (List.replicate c.level '#' ++ ' ' :: c.title) =
          some (c.level, c.title) := by
        rw [headingMatch_marks c.level hl1 hl6 c.title]
        rw [dropWhile_eq_self_of_head (head?_of_stripped hts)]
      have hstep : mdStep s (List.replicate c.level '#' ++ ' ' :: c.title) =
          (⟨c.level, pyStrip c.title, [], []⟩ : Frame) :: popFrames c.level s := by
        rw [mdStep.eq_def, hm]
      rw [blockLines, List.foldl_cons, hstep, hts, hpop]
      by_cases hser : _section_content_with_children c = []
      · rw [if_pos hser]
        cases c with
        | mk lv tt ccl cch =>
          have hfOk : forestOk lv cch = true := hok
          have huOk := userOK_mk.1 hu
          have hch : ∀ d ∈ cch, d.title ≠ [] ∧ pyStrip d.title = d.title := fun d hd =>
            ⟨(userForest_mem huOk.2 hd).1, (forestOk_mem hfOk hd).2.2.1⟩
          obtain ⟨hownn, hchn⟩ := serial_nil hch hser
          subst hchn
          refine ⟨[⟨lv, tt, [], []⟩], ?_, rfl⟩
          exact OpenS.leaf lv tt ccl [] (by rw [hownn, contentOf_nil])
      · rw [if_neg hser]
        exact serialN c hsize hok hu hser s'
    have childrenN : ∀ cs : List Node, sizeOf cs ≤ N + 1 → ChildrenSim cs := by
      intro cs hsize
      intro l t hf hu prev hlp hpl os_p hos cl' rs below
      cases cs with
      | nil =>
        refine ⟨[], prev, os_p, [], rfl, hpl, hos, mirF_nil_nil, ?_⟩
        simp
      | cons c cs' =>
        have hsC := List.cons.sizeOf_spec c cs'
        have hbc : sizeOf c ≤ N := by omega
        have hbcs : sizeOf cs' ≤ N := by omega
        have hfc := forestOk_cons.1 hf
        have huc := userForest_cons.1 hu
        have hl1 : l < c.level := hfc.1
        have hcprev : c.level ≤ prev.level := hlp c rfl
        rw [List.flatMap_cons, List.foldl_append, List.foldl_cons]
        rw [mdStep_pad headingMatch_nil (OpenS_ne_nil hos)]
        have hpadded : OpenS prev (padTop os_p []) := OpenS_pad hos pyStrip_nil
        obtain ⟨rp, hmp, hpop⟩ := popFrames_openS hpadded hcprev
          (⟨l, t, cl', rs⟩ : Frame) hl1 below
        obtain ⟨os1, hO1, he1⟩ := ihB c hbc hfc.2.2.2.2.1 huc.2.2.1 (by omega) hfc.2.1
          huc.1 hfc.2.2.1 huc.2.1 _ _ hpop
        rw [he1]
        have epush : pushChild (⟨l, t, cl', rs⟩ : Frame) rp =
            (⟨l, t, cl', rs ++ [rp]⟩ : Frame) := rfl
        rw [epush]
        obtain ⟨front', q, osq, rsnew', hfront', hql, hOq, hmirf', heq⟩ :=
          ihC cs' hbcs l t hfc.2.2.2.2.2 huc.2.2.2 c hfc.2.2.2.1 hl1 os1 hO1 cl'
            (rs ++ [rp]) below
        rw [heq]
        refine ⟨prev :: front', q, osq, rp :: rsnew', ?_, hql, hOq, ?_, ?_⟩
        · rw [hfront']
          rfl
        · rw [mirF_cons_cons, hmp, hmirf']
          rfl
        · simp [List.append_assoc]
    exact ⟨serialN, blockN, childrenN⟩

theorem serial_sim (c : Node) : SerialSim c :=
  (sim_all (sizeOf c)).1 c (le_refl _)

theorem block_sim (c : Node) : BlockSim c :=
  (sim_all (sizeOf c)).2.1 c (le_refl _)

theorem children_sim (cs : List Node) : ChildrenSim cs :=
  (sim_all (sizeOf cs)).2.2 cs (le_refl _)

/-- Running the reparse from the initial `[root]` stack over the lines of a
node's nonempty serialization and collapsing yields a level-0 root whose
children mirror the node's children and whose content is the node's stripped
content. -/
theorem root_sim (l : Nat) (t : Str) (cl : List Str) (ch : List Node)
    (hok : nodeOk (Node.mk l t cl ch) = true)
    (hu : userOK (Node.mk l t cl ch) = true)
    (hne : _section_content_with_children (Node.mk l t cl ch) ≠ []) :
    ∃ (clR : List Str) (rsR : List Node),
      contentOf clR = pyStrip (contentOf cl) ∧ mirF ch rsR = true ∧
      parseLines (splitNl (_section_content_with_children (Node.mk l t cl ch)))
        = Node.mk 0 "ROOT".data clR rsR := by
  have hfOk : forestOk l ch = true := hok
  have hf0 : forestOk 0 ch = true := forestOk_mono hfOk (Nat.zero_le l)
  have huOk := userOK_mk.1 hu
  have hch : ∀ d ∈ ch, d.title ≠ [] ∧ pyStrip d.title = d.title := fun d hd =>
    ⟨(userForest_mem huOk.2 hd).1, (forestOk_mem hfOk hd).2.2.1⟩
  rw [serial_eq hch] at hne ⊢
  rw [parseLines]
  cases ch with
  | nil =>
    rw [show childBlocks ([] : List Node) = [] from rfl, List.append_nil] at hne ⊢
    by_cases hown : pyStrip (contentOf cl) = []
    · rw [if_pos hown, intercalate_nil] at hne
      exact absurd rfl hne
    · rw [if_neg hown, intercalate_single]
      refine ⟨splitNl (pyStrip (contentOf cl)), [],
        contentOf_splitNl (pyStrip_idem _) hown, mirF_nil_nil, ?_⟩
      rw [show [rootFrame] = ((⟨0, "ROOT".data, [], []⟩ : Frame) :: ([] : List Frame))
        from rfl]
      rw [foldl_mdStep_content_mk huOk.1]
      simp only [List.nil_append]
      rfl
  | cons c1 ch' =>
    have hf1 := forestOk_cons.1 hf0
    have hu1 := userForest_cons.1 huOk.2
    have hl1 : (0 : Nat) < c1.level := hf1.1
    by_cases hown : pyStrip (contentOf cl) = []
    · rw [if_pos hown, List.nil_append, childBlocks_cons, splitNl_intercalate_sep,
        splitNl_childBlock (by omega) hu1.1 hf1.2.2.1 hu1.2.1,
        childBlocks_flatMap hf1.2.2.2.2.2 hu1.2.2.2, List.foldl_append]
      rw [show [rootFrame] = ((⟨0, "ROOT".data, [], []⟩ : Frame) :: ([] : List Frame))
        from rfl]
      have hpop1 : popFrames c1.level
          ((⟨0, "ROOT".data, [], []⟩ : Frame) :: ([] : List Frame)) =
          (⟨0, "ROOT".data, [], []⟩ : Frame) :: ([] : List Frame) :=
        popFrames_top_lt hl1
      obtain ⟨os1, hO1, he1⟩ := block_sim c1 hf1.2.2.2.2.1 hu1.2.2.1 (by omega)
        hf1.2.1 hu1.1 hf1.2.2.1 hu1.2.1 _ _ hpop1
      rw [he1]
      obtain ⟨front, q, osq, rsnew, hfront, hql, hOq, hmirf, heq⟩ :=
        children_sim ch' 0 "ROOT".data hf1.2.2.2.2.2 hu1.2.2.2 c1 hf1.2.2.2.1 hl1
          os1 hO1 [] [] ([] : List Frame)
      simp only [List.nil_append] at heq
      rw [heq]
      obtain ⟨rq, hmq, hcoll⟩ := collapse_openS hOq (⟨0, "ROOT".data, [], rsnew⟩ : Frame)
      rw [hcoll]
      refine ⟨[], rsnew ++ [rq], by rw [hown, contentOf_nil], ?_, rfl⟩
      rw [hfront]
      exact mirF_append_singleton hmirf hmq
    · rw [if_neg hown, List.singleton_append, splitNl_intercalate_sep,
        childBlocks_flatMap hf0 huOk.2, List.foldl_append]
      rw [show [rootFrame] = ((⟨0, "ROOT".data, [], []⟩ : Frame) :: ([] : List Frame))
        from rfl]
      rw [foldl_mdStep_content_mk huOk.1]
      simp only [List.nil_append]
      rw [List.flatMap_cons, List.foldl_append, List.foldl_cons,
        mdStep_content_mk headingMatch_nil]
      have hpop1 : popFrames c1.level
          ((⟨0, "ROOT".data, splitNl (pyStrip (contentOf cl)) ++ [[]], []⟩ : Frame) ::
            ([] : List Frame)) =
          (⟨0, "ROOT".data, splitNl (pyStrip (contentOf cl)) ++ [[]], []⟩ : Frame) ::
            ([] : List Frame) :=
        popFrames_top_lt hl1
      obtain ⟨os1, hO1, he1⟩ := block_sim c1 hf1.2.2.2.2.1 hu1.2.2.1 (by omega)
        hf1.2.1 hu1.1 hf1.2.2.1 hu1.2.1 _ _ hpop1
      rw [he1]
      obtain ⟨front, q, osq, rsnew, hfront, hql, hOq, hmirf, heq⟩ :=
        children_sim ch' 0 "ROOT".data hf1.2.2.2.2.2 hu1.2.2.2 c1 hf1.2.2.2.1 hl1
          os1 hO1 (splitNl (pyStrip (contentOf cl)) ++ [[]]) [] ([] : List Frame)
      simp only [List.nil_append] at heq
      rw [heq]
      obtain ⟨rq, hmq, hcoll⟩ := collapse_openS hOq
        (⟨0, "ROOT".data, splitNl (pyStrip (contentOf cl)) ++ [[]], rsnew⟩ : Frame)
      rw [hcoll]
      refine ⟨splitNl (pyStrip (contentOf cl)) ++ [[]], rsnew ++ [rq], ?_, ?_, rfl⟩
      · rw [contentOf_append_blank pyStrip_nil]
        exact contentOf_splitNl (pyStrip_idem _) hown
      · rw [hfront]
        exact mirF_append_singleton hmirf hmq

/-- **C1 (counterexample).** The structural round-trip claimed for matched
sections fails on the document "# T\n  ## fake": its single level-1 node has
no children, but `_section_content_with_children` strips the node's content,
uncovering the indented line so that it re-parses as a level-2 heading — the
reconstructed text re-parses with one child (level 2, title "fake") where the
original subtree had none, and the content text is not preserved verbatim. -/
theorem section_roundtrip_not_structural_cex :
    ((parse_markdown ("# T\n  ## fake".data)).children.map fun c =>
      (c.children.length,
       _section_content_with_children c,
       (parse_markdown (_section_content_with_children c)).children.map fun d =>
         (d.level, d.title)))
    = [(0, "## fake".data, [(2, "fake".data)])] := by decide

/-- **C1 (amended).** For every node of a parse tree (hereditarily
well-formed, `nodeOk`) such that no line of any stripped node content
re-matches the heading pattern and every descendant title is nonempty and
newline-free (`userOK`), re-parsing the text reconstructed by
`_section_content_with_children` with `parse_markdown` yields a level-0 root
whose children mirror the node's children — equal levels and titles
hereditarily — and whose content, like that of every mirrored node, is the
stripped (not verbatim) content of the original. -/
theorem section_serialization_reparse_mirror (l : Nat) (t : Str) (cl : List Str)
    (ch : List Node) (hok : nodeOk (Node.mk l t cl ch) = true)
    (hu : userOK (Node.mk l t cl ch) = true) :
    mirF ch (parse_markdown (_section_content_with_children (Node.mk l t cl ch))).children
      = true ∧
    Node.content (parse_markdown (_section_content_with_children (Node.mk l t cl ch)))
      = pyStrip (Node.content (Node.mk l t cl ch)) ∧
    (parse_markdown (_section_content_with_children (Node.mk l t cl ch))).level = 0 := by
  have hch : ∀ d ∈ ch, d.title ≠ [] ∧ pyStrip d.title = d.title := fun d hd =>
    ⟨(userForest_mem (userOK_mk.1 hu).2 hd).1,
     (forestOk_mem (show forestOk l ch = true from hok) hd).2.2.1⟩
  by_cases hser : _section_content_with_children (Node.mk l t cl ch) = []
  · obtain ⟨hown, hchn⟩ := serial_nil hch hser
    subst hchn
    rw [hser]
    refine ⟨mirF_nil_nil, ?_, rfl⟩
    show Node.content (parse_markdown []) = pyStrip (Node.content (Node.mk l t cl []))
    rw [show Node.content (Node.mk l t cl []) = contentOf cl from rfl]
    rw [hown]
    rfl
  · rw [parse_markdown, pySplitlines_of_stripped (section_content_stripped _) hser]
    obtain ⟨clR, rsR, hclR, hmir, heq⟩ := root_sim l t cl ch hok hu hser
    rw [heq]
    refine ⟨hmir, ?_, rfl⟩
    show contentOf clR = pyStrip (Node.content (Node.mk l t cl ch))
    rw [show Node.content (Node.mk l t cl ch) = contentOf cl from rfl]
    exact hclR

/-- Witness for the amended round-trip theorem: a concrete two-level section
satisfying its hypotheses, on which the theorem is applied directly. -/
theorem section_serialization_reparse_mirror_witness :
    nodeOk (Node.mk 1 "T".data ["hello".data] [Node.mk 2 "A".data ["x".data] []])
      = true ∧
    userOK (Node.mk 1 "T".data ["hello".data] [Node.mk 2 "A".data ["x".data] []])
      = true ∧
    (mirF [Node.mk 2 "A".data ["x".data] []]
      (parse_markdown (_section_content_with_children
        (Node.mk 1 "T".data ["hello".data]
          [Node.mk 2 "A".data ["x".data] []]))).children = true ∧
     Node.content (parse_markdown (_section_content_with_children
        (Node.mk 1 "T".data ["hello".data] [Node.mk 2 "A".data ["x".data] []])))
       = pyStrip (Node.content (Node.mk 1 "T".data ["hello".data]
          [Node.mk 2 "A".data ["x".data] []])) ∧
     (parse_markdown (_section_content_with_children
        (Node.mk 1 "T".data ["hello".data]
          [Node.mk 2 "A".data ["x".data] []]))).level = 0) :=
  ⟨by decide, by decide,
    section_serialization_reparse_mirror 1 "T".data ["hello".data]
      [Node.mk 2 "A".data ["x".data] []] (by decide) (by decide)⟩

end MdToKv
